import Mathlib

/-!
Verification of the steemvote curation engine against its specification.

The definitions below are a shallow embedding of the Python sources:
  * `steemvote/db.py`    — the tracking store (`DB`),
  * `steemvote/voter.py` — the curator / voter (`Curator`, `Voter`),
  * `steemvote/config.py` and `steemvote/models.py` — configuration and models.

Machine integers are modelled as `Int`/`Nat`, Python floats as `Rat`
(exact arithmetic; the one place the code rounds, `round(x, 4)`, is
modelled explicitly with round-half-to-even), SQLite tables as
association lists keyed by the unique identifier column, Python dicts as
insertion-ordered association lists, and Python exceptions as
`Option`/`Except` results.
-/

set_option maxHeartbeats 1000000

namespace Steemvote

/-! ## Tracking store: `steemvote/db.py` -/

/-- A row of the `DBComment` table (db.py lines 45-55): reason type and
value, plus the `tracked` and `voted` boolean columns.  The `identifier`
column is the association-list key. -/
structure DBRecord where
  reason_type : String
  reason_value : String
  tracked : Bool
  voted : Bool
deriving Repr, DecidableEq

/-- An entry of the in-memory `DB.tracked_comments` dict (db.py line 96):
a `TrackedComment` holds the comment (represented by its identifier) and
the reason metadata. -/
structure TrackedComment where
  identifier : String
  reason_type : String
  reason_value : String
deriving Repr, DecidableEq

/-- The `DBComment` table: rows keyed by the unique `identifier` column. -/
abbrev Rows := List (String × DBRecord)

/-- `DBComment.select().where(DBComment.identifier == id)` followed by
`.get()`: the first row with the given identifier, if any. -/
def rowsFind (rows : Rows) (id : String) : Option DBRecord :=
  (rows.find? (fun p => p.1 == id)).map (·.2)

/-- The identifiers (keys) of the stored rows. -/
def rowsKeys (rows : Rows) : List String := rows.map (·.1)

/-- The joint state of the durable `DBComment` table and the in-memory
`DB.tracked_comments` working set. -/
structure DBState where
  rows : Rows
  mem : List TrackedComment
deriving Repr, DecidableEq

/-- Python dict assignment `tracked_comments[t.identifier] = t`:
replace an existing entry in place, else append. -/
def dictSet (mem : List TrackedComment) (t : TrackedComment) : List TrackedComment :=
  if mem.any (fun u => u.identifier == t.identifier) then
    mem.map (fun u => if u.identifier == t.identifier then t else u)
  else mem ++ [t]

/-- `DB.add_comment` (db.py lines 137-148): if a row already exists for
the identifier return `false` and change nothing; otherwise create a row
with `tracked=True, voted=False`, put a `TrackedComment` into the
working set, and return `true`. -/
def add_comment (id rt rv : String) (s : DBState) : Bool × DBState :=
  if (rowsFind s.rows id).isSome then (false, s)
  else (true, ⟨s.rows ++ [(id, ⟨rt, rv, true, false⟩)], dictSet s.mem ⟨id, rt, rv⟩⟩)

/-- The row mutation performed by `DB.update_voted_comments`:
`c.tracked = False; c.voted = True`. -/
def markVotedRecord (r : DBRecord) : DBRecord := { r with tracked := false, voted := true }

/-- One iteration of the loop in `DB.update_voted_comments` (db.py lines
165-169): look up the row for the identifier (peewee `.get()` raises
`DoesNotExist`, modelled as `none`, when there is no row), set
`tracked=False, voted=True` and save it. -/
def setVoted (rows : Rows) (id : String) : Option Rows :=
  if (rowsFind rows id).isSome then
    some (rows.map (fun p => if p.1 == id then (p.1, markVotedRecord p.2) else p))
  else none

/-- The row deletion performed by `DB.remove_tracked_comments` for one
identifier: delete the row matching
`identifier == id AND tracked == True AND voted == False` if it exists. -/
def removeRows (id : String) (rows : Rows) : Rows :=
  rows.filter (fun p => !(p.1 == id && p.2.tracked && !p.2.voted))

/-- One iteration of the loop in `DB.remove_tracked_comments` (db.py
lines 188-194): delete the matching durable row and evict the
identifier from the working set. -/
def removeOne (s : DBState) (id : String) : DBState :=
  ⟨removeRows id s.rows, s.mem.filter (fun t => t.identifier != id)⟩

/-- `DB.remove_tracked_comments` (db.py lines 185-194). -/
def remove_tracked_comments (ids : List String) (s : DBState) : DBState :=
  ids.foldl removeOne s

/-- `DB.update_voted_comments` (db.py lines 162-171): mark every listed
identifier's row `tracked=False, voted=True` (raising, i.e. `none`, if
an identifier has no row), then call `remove_tracked_comments` on the
same identifiers. -/
def update_voted_comments (ids : List String) (s : DBState) : Option DBState := do
  let rows ← ids.foldlM setVoted s.rows
  some (remove_tracked_comments ids ⟨rows, s.mem⟩)

/-- `DB.load` (db.py lines 123-132, restricted to the comment table):
rebuild the working set from the rows with `tracked == True` and
`voted == False`. -/
def dbLoad (rows : Rows) : DBState :=
  ⟨rows, (rows.filter (fun p => p.2.tracked && !p.2.voted)).map
      (fun p => ⟨p.1, p.2.reason_type, p.2.reason_value⟩)⟩

/-- `DB.get_tracked_comments` (db.py lines 173-183): a snapshot of the
working set's values. -/
def get_tracked_comments (s : DBState) : List TrackedComment := s.mem

/-! ## Schema version check: `DB.check_version` (db.py lines 100-107) -/

/-- `DB.db_version` (db.py line 77). -/
def db_version : String := "0.1.0"

/-- `DB.get_version` (db.py lines 109-117): the stored `db_version`
config value, or the current version (which is then stored) when the
key is absent. -/
def get_version (stored : Option String) : String := stored.getD db_version

/-- Python's `<` on strings: lexicographic comparison by code point. -/
def charsLt : List Char → List Char → Bool
  | [], [] => false
  | [], _ :: _ => true
  | _ :: _, [] => false
  | a :: as, b :: bs =>
    if a < b then true
    else if b < a then false
    else charsLt as bs

/-- Python's `version < other` on version strings. -/
def pyStrLt (a b : String) : Bool := charsLt a.toList b.toList

/-- `DB.check_version` (db.py lines 100-107): raise `DBVersionError` if
the stored version is lexicographically below `"0.1.0"`, raise if it is
above the current version, otherwise succeed. -/
def check_version (version : String) : Except String Unit :=
  if pyStrLt version db_version then
    Except.error ("Invalid database version (" ++ version ++ ")")
  else if pyStrLt db_version version then
    Except.error ("Stored database version (" ++ version ++ ") is greater than current version ("
      ++ db_version ++ ")")
  else Except.ok ()

/-! ## Curation policy: `steemvote/voter.py` and `steemvote/models.py` -/

/-- `models.Priority` (models.py lines 14-18). -/
inductive Priority where
  | low
  | normal
  | high
deriving Repr, DecidableEq

/-- `models.Author` (models.py lines 53-63), with the float weight as a
rational. -/
structure AuthorR where
  name : String
  vote_replies : Bool
  weight : Rat
  priority : Priority
deriving Repr, DecidableEq

/-- `models.Delegate` (models.py lines 93-102). -/
structure DelegateR where
  name : String
  weight : Rat
  priority : Priority
deriving Repr, DecidableEq

/-- `models.Comment` restricted to the fields the curator reads: author,
category, unix creation timestamp, parent author (empty when not a
reply), the two allow flags, and the names of the accounts that voted on
it (`active_votes`). -/
structure CommentR where
  identifier : String
  author : String
  category : String
  timestamp : Int
  parent_author : String
  allow_curation_rewards : Bool
  allow_votes : Bool
  active_voters : List String
deriving Repr, DecidableEq

/-- `Config.get_author` (config.py lines 191-195): the first configured
author with the given name. -/
def get_author (authors : List AuthorR) (name : String) : Option AuthorR :=
  authors.find? (fun a => a.name == name)

/-- The dict comprehension `{i.name: i for i in self.config.delegates}`
in `Curator._get_voted_delegates` (voter.py line 61): an
insertion-ordered map from name to delegate, later entries overwriting
earlier ones. -/
def delegateDict (ds : List DelegateR) : List DelegateR :=
  ds.foldl (fun acc d =>
    if acc.any (fun u => u.name == d.name) then
      acc.map (fun u => if u.name == d.name then d else u)
    else acc ++ [d]) []

/-- `Curator._get_voted_delegates` (voter.py lines 59-67): the
configured delegates whose names appear among the comment's voters
(`Comment.get_have_voted`, models.py lines 144-148). -/
def get_voted_delegates (ds : List DelegateR) (c : CommentR) : List DelegateR :=
  (delegateDict ds).filter (fun d => c.active_voters.contains d.name)

/-- The curator's policy state (`Curator.__init__`/`load_settings`,
voter.py lines 23-57) together with `current_voting_power`. -/
structure Curator where
  min_post_age : Int
  max_post_age : Int
  priority_voting_powers : Priority → Rat
  blacklisted_authors : List String
  blacklisted_categories : List String
  authors : List AuthorR
  delegates : List DelegateR
  current_voting_power : Rat

/-- The result type `ShouldTrack` (voter.py line 17). -/
structure ShouldTrackR where
  track : Bool
  reason : String
deriving Repr, DecidableEq

/-- The result type `ShouldVote` (voter.py line 18). -/
structure ShouldVoteR where
  vote : Bool
  track : Bool
  reason : String
deriving Repr, DecidableEq

/-- `Curator.is_blacklisted` (voter.py lines 69-71). -/
def is_blacklisted (cur : Curator) (c : CommentR) : Bool :=
  cur.blacklisted_authors.contains c.author || cur.blacklisted_categories.contains c.category

/-- `Curator.is_too_young` (voter.py lines 73-75), with `now` standing
for `time.time()`. -/
def is_too_young (cur : Curator) (now : Int) (c : CommentR) : Bool :=
  decide (now - c.timestamp < cur.min_post_age)

/-- `Curator.is_too_old` (voter.py lines 77-79). -/
def is_too_old (cur : Curator) (now : Int) (c : CommentR) : Bool :=
  decide (now - c.timestamp > cur.max_post_age)

/-- `Curator.is_prioritized` (voter.py lines 81-83). -/
def is_prioritized (cur : Curator) (p : Priority) : Bool :=
  decide (cur.current_voting_power ≥ cur.priority_voting_powers p)

/-- `Curator.should_track` (voter.py lines 85-102). -/
def should_track (cur : Curator) (now : Int) (c : CommentR) : ShouldTrackR :=
  if !c.allow_curation_rewards || !c.allow_votes then
    ⟨false, "comment does not allow curation"⟩
  else if is_blacklisted cur c then
    ⟨false, "comment author/category is blacklisted"⟩
  else if is_too_old cur now c then
    ⟨false, "comment is too old"⟩
  else ⟨true, ""⟩

/-- `Curator.should_track_for_author` (voter.py lines 104-117). -/
def should_track_for_author (cur : Curator) (now : Int) (c : CommentR) : ShouldTrackR :=
  let st := should_track cur now c
  if !st.track then st
  else match get_author cur.authors c.author with
    | none => ⟨false, "author is unknown"⟩
    | some a =>
      if c.parent_author != "" && !a.vote_replies then ⟨false, "comment is a reply"⟩
      else ⟨true, ""⟩

/-- `Curator.should_track_for_delegate` (voter.py lines 119-127). -/
def should_track_for_delegate (cur : Curator) (now : Int) (c : CommentR) : ShouldTrackR :=
  let st := should_track cur now c
  if !st.track then st
  else if (get_voted_delegates cur.delegates c).isEmpty then
    ⟨false, "no delegates have voted for comment"⟩
  else ⟨true, ""⟩

/-- `Curator._should_vote_author` (voter.py lines 129-139). -/
def should_vote_author (cur : Curator) (c : CommentR) : Bool × String :=
  match get_author cur.authors c.author with
  | none => (false, "author does not have a high enough priority")
  | some a =>
    if !is_prioritized cur a.priority then
      (false, "author does not have a high enough priority")
    else (true, "")

/-- `Curator._should_vote_delegates` (voter.py lines 141-153). -/
def should_vote_delegates (cur : Curator) (c : CommentR) : Bool × String :=
  let ds := get_voted_delegates cur.delegates c
  if ds.isEmpty then (false, "no delegates have voted for comment")
  else if !(ds.any (fun d => is_prioritized cur d.priority)) then
    (false, "no delegates with a high enough priority")
  else (true, "")

/-- `Curator.should_vote` (voter.py lines 155-178). -/
def should_vote (cur : Curator) (now : Int) (c : CommentR) : ShouldVoteR :=
  let st := should_track cur now c
  if !st.track then ⟨false, st.track, st.reason⟩
  else if is_too_young cur now c then ⟨false, true, "comment is too young"⟩
  else
    let sva := should_vote_author cur c
    let svd := should_vote_delegates cur c
    if !sva.1 && !svd.1 then ⟨false, true, sva.2 ++ " and " ++ svd.2⟩
    else ⟨true, true, ""⟩

/-! ## Voting dispatch: `Voter` (voter.py lines 181-311) -/

/-- The outcome of `steem.rpc.broadcast_transaction` in `Voter._vote`
(voter.py lines 267-281): success, or an `RPCError` carrying the error
message (`e.args[0]`). -/
inductive BResult where
  | ok
  | rpcError (msg : String)
deriving Repr, DecidableEq

/-- The `already_voted_messages` list in `Voter._vote` (voter.py lines
274-277). -/
def already_voted_messages : List String :=
  ["Changing your vote requires", "Cannot vote again"]

/-- `needle` occurs as a contiguous run inside `hay` — the Python
substring test `needle in hay` on the error message. -/
def charsContain (needle hay : List Char) : Bool :=
  match hay with
  | [] => needle.isEmpty
  | _ :: t => needle.isPrefixOf hay || charsContain needle t

/-- `any(i in e.args[0] for i in already_voted_messages)` in
`Voter._vote` (voter.py line 278). -/
def isAlreadyVotedError (msg : String) : Bool :=
  already_voted_messages.any (fun i => charsContain i.toList msg.toList)

/-- `Voter._vote` (voter.py lines 267-281): broadcast the vote; an
`RPCError` whose message matches an already-voted signature is
swallowed (logged), any other `RPCError` is re-raised. -/
def vote (broadcast : String → BResult) (id : String) : Except String Unit :=
  match broadcast id with
  | BResult.ok => Except.ok ()
  | BResult.rpcError msg =>
    if isAlreadyVotedError msg then Except.ok () else Except.error msg

/-- The loop body of `Voter.vote_for_comments` (voter.py lines 295-307):
walk the tracked comments in order, collecting `voted_comments` and
`old_identifiers`; the curator's `should_vote` outcome for each comment
is supplied by `decide` and the broadcast outcome by `broadcast`.  An
unhandled `RPCError` aborts the loop (and hence the cycle) before any
database commit. -/
def voteLoop (decide : String → ShouldVoteR) (broadcast : String → BResult) :
    List String → Except String (List String × List String)
  | [] => Except.ok ([], [])
  | id :: rest =>
    let sv := decide id
    if sv.vote then
      match vote broadcast id with
      | Except.error e => Except.error e
      | Except.ok () =>
        match voteLoop decide broadcast rest with
        | Except.error e => Except.error e
        | Except.ok (v, o) => Except.ok (id :: v, o)
    else if !sv.track then
      match voteLoop decide broadcast rest with
      | Except.error e => Except.error e
      | Except.ok (v, o) => Except.ok (v, id :: o)
    else voteLoop decide broadcast rest

/-- `Voter.vote_for_comments` (voter.py lines 283-310): snapshot the
tracked comments, partition them by `should_vote`, broadcast the
approved votes, then commit `update_voted_comments` on the voted batch
and `remove_tracked_comments` on the dropped identifiers.  A re-raised
executor error (or a `DoesNotExist` from the commit) propagates and no
state transition happens. -/
def vote_for_comments (decide : String → ShouldVoteR) (broadcast : String → BResult)
    (s : DBState) : Except String DBState :=
  match voteLoop decide broadcast (s.mem.map (·.identifier)) with
  | Except.error e => Except.error e
  | Except.ok (voted, old) =>
    match update_voted_comments voted s with
    | none => Except.error "DoesNotExist"
    | some s' => Except.ok (remove_tracked_comments old s')

/-- The identifiers a dispatch cycle starting from `s` would submit to
the executor: the tracked identifiers whose `should_vote` outcome
approves a vote (voter.py lines 296-306). -/
def submittedIds (decide : String → ShouldVoteR) (s : DBState) : List String :=
  (s.mem.map (·.identifier)).filter (fun id => (decide id).vote)

/-- `Voter.get_voting_weight` (voter.py lines 256-265): the configured
author's weight when an author rule exists, else the maximum weight
among the configured delegates that voted on the comment; `none` models
the `raise Exception` when neither applies. -/
def get_voting_weight (authors : List AuthorR) (delegates : List DelegateR)
    (c : CommentR) : Option Rat :=
  match get_author authors c.author with
  | some a => some a.weight
  | none => ((get_voted_delegates delegates c).map (·.weight)).max?

/-! ## Resource budget: `Voter.update` (voter.py lines 227-249) -/

/-- `STEEMIT_100_PERCENT` (voter.py line 14). -/
def STEEMIT_100_PERCENT : Int := 10000

/-- `STEEMIT_VOTE_REGENERATION_SECONDS` (voter.py line 15). -/
def STEEMIT_VOTE_REGENERATION_SECONDS : Int := 5 * 60 * 60 * 24

/-- Python's `round()` to an integer: round half to even. -/
def pyRound (q : Rat) : Int :=
  let f := ⌊q⌋
  if q - f < 1/2 then f
  else if 1/2 < q - f then f + 1
  else if f % 2 = 0 then f else f + 1

/-- Python's `round(x, 4)`: round to four decimal places, half to even. -/
def round4 (q : Rat) : Rat := (pyRound (q * 10000) : Rat) / 10000

/-- The voting-power computation in `Voter.update` (voter.py lines
239-247): `voting_power` is the raw observed level in basis points
(0..10000) and `elapsed_seconds` the whole seconds since it was
observed; the result is `self.current_voting_power`. -/
def update_voting_power (voting_power elapsed_seconds : Int) : Rat :=
  let regenerated_power : Rat :=
    (STEEMIT_100_PERCENT * elapsed_seconds : Int) / (STEEMIT_VOTE_REGENERATION_SECONDS : Rat)
  let current_power : Rat := min ((voting_power : Rat) + regenerated_power) (STEEMIT_100_PERCENT : Rat)
  round4 (current_power / (STEEMIT_100_PERCENT : Rat))

/-! ## Rate window

Modelled from the spec: the Rate Window component (spec sections 4.3 and
3, `RateWindowLedger`) has no implementation under `src/`; only the spec
describes it.  The definitions below follow the spec's words for the
count-based deployment: `Record` appends a timestamp and prunes the
ledger beyond the allotment count (oldest entries evicted), the ledger
itself is the persisted state, and `UtilizationNow` is
`count of entries within the window / allotment`. -/

/-- Modelled from the spec: the rate window state — the allotment
constant and the ordered ledger of action timestamps (oldest first). -/
structure RateWindow where
  allotment : Nat
  ledger : List Int
deriving Repr, DecidableEq

/-- Modelled from the spec: `Record(timestamp)` — append, then prune
entries beyond the allotment count, oldest first. -/
def rwRecord (w : RateWindow) (t : Int) : RateWindow :=
  let l := w.ledger ++ [t]
  { w with ledger := if w.allotment < l.length then l.drop (l.length - w.allotment) else l }

/-- Record a sequence of timestamps in order. -/
def rwRecordAll (w : RateWindow) (ts : List Int) : RateWindow :=
  ts.foldl rwRecord w

/-- Modelled from the spec: `UtilizationNow` for the count-based window
— `count of entries within window / allotment constant`. -/
def rwUtilization (w : RateWindow) : Rat :=
  (w.ledger.length : Rat) / (w.allotment : Rat)

/-- Modelled from the spec: rebuilding the rate window from its
persisted ledger after a restart. -/
def rwRestore (allotment : Nat) (persisted : List Int) : RateWindow :=
  ⟨allotment, persisted⟩

/-- `Curator.load_settings` (voter.py lines 35-57), reduced to its
validation outcome: raise `ConfigError` when the minimum post age
exceeds the maximum, then raise `ConfigError` when the priority voting
powers are not ordered `low >= normal >= high`. -/
def load_settings_check (min_age max_age : Int) (p_low p_normal p_high : Rat) :
    Except String Unit :=
  if min_age > max_age then
    Except.error "Minimum post age cannot be more than maximum post age"
  else if !(decide (p_low ≥ p_normal) && decide (p_normal ≥ p_high)) then
    Except.error "Priority voting powers must be: low >= normal >= high"
  else Except.ok ()

/-! ## Operation sequences over the tracking store -/

/-- The tracking-store operations of db.py: `add_comment`,
`update_voted_comments` and `remove_tracked_comments`. -/
inductive DBOp where
  | add (id rt rv : String)
  | markVoted (ids : List String)
  | removeTracked (ids : List String)

/-- Apply one operation; `none` models an uncaught exception
(`DoesNotExist` from `update_voted_comments`). -/
def stepOp (s : DBState) : DBOp → Option DBState
  | DBOp.add id rt rv => some (add_comment id rt rv s).2
  | DBOp.markVoted ids => update_voted_comments ids s
  | DBOp.removeTracked ids => some (remove_tracked_comments ids s)

/-- Apply a sequence of operations; an exception aborts the run. -/
def runOps (s : DBState) : List DBOp → Option DBState
  | [] => some s
  | op :: ops => (stepOp s op).bind (fun s' => runOps s' ops)

/-- A durable record is non-terminal when it is tracked and not yet
voted. -/
def nonterminal (r : DBRecord) : Prop := r.tracked = true ∧ r.voted = false

/-- The store's working-set invariant: durable identifiers are unique,
and an identifier is in the in-memory working set exactly when its
durable record is non-terminal. -/
def DBInv (s : DBState) : Prop :=
  (rowsKeys s.rows).Nodup ∧
  ∀ id, (∃ t ∈ s.mem, t.identifier = id) ↔
    (∃ r, rowsFind s.rows id = some r ∧ r.tracked = true ∧ r.voted = false)

/-! ## Theorems -/

/-- C4: loading a policy whose priority thresholds violate
`low ≥ normal ≥ high` — in particular any configuration with
`low < normal` — raises a `ConfigError` during settings load, before
any item is evaluated. -/
theorem c4_priority_monotonicity (min_age max_age : Int) (p_low p_normal p_high : Rat)
    (h : ¬(p_low ≥ p_normal ∧ p_normal ≥ p_high)) :
    ∃ e, load_settings_check min_age max_age p_low p_normal p_high = Except.error e := by
  unfold load_settings_check
  split
  · exact ⟨_, rfl⟩
  · rw [if_pos]
    · exact ⟨_, rfl⟩
    · simp only [Bool.not_eq_true', Bool.and_eq_false_iff, decide_eq_false_iff_not, not_le] at *
      rcases not_and_or.mp h with h' | h'
      · exact Or.inl (not_le.mp h')
      · exact Or.inr (not_le.mp h')

theorem c4_priority_monotonicity_witness :
    ¬((0.8 : Rat) ≥ 0.9 ∧ (0.9 : Rat) ≥ 0.95) ∧
      ∃ e, load_settings_check 60 172800 0.8 0.9 0.95 = Except.error e :=
  ⟨by norm_num, c4_priority_monotonicity 60 172800 0.8 0.9 0.95 (by norm_num)⟩

theorem charsLt_asymm : ∀ (a b : List Char), charsLt a b = true → charsLt b a = false
  | [], [] => by simp [charsLt]
  | [], _ :: _ => by simp [charsLt]
  | _ :: _, [] => by simp [charsLt]
  | a :: as, b :: bs => by
    simp only [charsLt]
    intro h
    split at h
    · rename_i hab
      rw [if_neg (asymm hab), if_pos hab]
    · split at h
      · exact absurd h (by simp)
      · rename_i hab hba
        rw [if_neg hba, if_neg hab]
        exact charsLt_asymm as bs h

/-- C9 (counterexample): the claim says an older-but-compatible stored
version triggers an in-place migration rather than an error, but
`DB.check_version` raises `DBVersionError` on the older version
`"0.0.9"`. -/
theorem c9_older_version_errors :
    check_version "0.0.9" = Except.error "Invalid database version (0.0.9)" := by
  rfl

/-- C9 (amended): opening the store with a stored version newer than the
supported `"0.1.0"` raises an incompatible-version error, and a stored
version older than `"0.1.0"` also raises an error (there is no
migration); only the exact supported version opens successfully. -/
theorem c9_version_check (v : String) :
    (pyStrLt db_version v = true →
      check_version v = Except.error ("Stored database version (" ++ v ++
        ") is greater than current version (" ++ db_version ++ ")")) ∧
    (pyStrLt v db_version = true →
      check_version v = Except.error ("Invalid database version (" ++ v ++ ")")) ∧
    (v = db_version → check_version v = Except.ok ()) := by
  refine ⟨fun h => ?_, fun h => ?_, fun h => ?_⟩
  · unfold check_version
    rw [if_neg, if_pos h]
    rw [pyStrLt, charsLt_asymm _ _ h]
    simp
  · unfold check_version
    rw [if_pos h]
  · subst h
    rfl

theorem c9_version_check_witness :
    pyStrLt db_version "0.2.0" = true ∧
      check_version "0.2.0" = Except.error ("Stored database version (" ++ "0.2.0" ++
        ") is greater than current version (" ++ db_version ++ ")") :=
  ⟨by decide, (c9_version_check "0.2.0").1 (by decide)⟩

/-- C7: when resolving the weight for an approved item, an existing
author rule's weight takes precedence; with no author rule, the weight
is the maximum weight among the configured delegates that voted on the
item. -/
theorem c7_weight_selection (authors : List AuthorR) (delegates : List DelegateR)
    (c : CommentR) :
    (∀ a, get_author authors c.author = some a →
      get_voting_weight authors delegates c = some a.weight) ∧
    (get_author authors c.author = none →
      ∀ m, ((get_voted_delegates delegates c).map (·.weight)).max? = some m →
        get_voting_weight authors delegates c = some m ∧
        m ∈ (get_voted_delegates delegates c).map (·.weight) ∧
        ∀ w ∈ (get_voted_delegates delegates c).map (·.weight), w ≤ m) := by
  constructor
  · intro a ha
    unfold get_voting_weight
    rw [ha]
  · intro hn m hm
    refine ⟨?_, List.max?_mem (fun a b => max_choice a b) hm, ?_⟩
    · unfold get_voting_weight
      rw [hn]
      exact hm
    · intro w hw
      exact (List.max?_le_iff (fun a b c => max_le_iff) hm).1 le_rfl w hw

theorem c7_weight_selection_witness :
    get_voting_weight [] [⟨"d1", 10, Priority.normal⟩, ⟨"d2", 30, Priority.low⟩]
        ⟨"i", "alice", "c", 0, "", true, true, ["d1", "d2"]⟩ = some 30 ∧
      (30 : Rat) ∈ ((get_voted_delegates [⟨"d1", 10, Priority.normal⟩, ⟨"d2", 30, Priority.low⟩]
        ⟨"i", "alice", "c", 0, "", true, true, ["d1", "d2"]⟩).map (·.weight)) ∧
      ∀ w ∈ ((get_voted_delegates [⟨"d1", 10, Priority.normal⟩, ⟨"d2", 30, Priority.low⟩]
        ⟨"i", "alice", "c", 0, "", true, true, ["d1", "d2"]⟩).map (·.weight)), w ≤ 30 :=
  (c7_weight_selection [] [⟨"d1", 10, Priority.normal⟩, ⟨"d2", 30, Priority.low⟩]
    ⟨"i", "alice", "c", 0, "", true, true, ["d1", "d2"]⟩).2 rfl 30 (by decide)

/-- C8: an item passing the coarse `should_track` checks but younger
than `min_post_age` is rejected with `keepTracking = true` and the
too-young reason; re-evaluated once it is old enough, with an author
rule whose tier threshold the current budget meets, it is approved with
`keepTracking = true` and an empty reason. -/
theorem c8_too_young_retry (cur : Curator) (c : CommentR) (now now' : Int) (a : AuthorR)
    (h1 : (should_track cur now c).track = true)
    (h2 : now - c.timestamp < cur.min_post_age)
    (h3 : (should_track cur now' c).track = true)
    (h4 : cur.min_post_age ≤ now' - c.timestamp)
    (h5 : get_author cur.authors c.author = some a)
    (h6 : cur.priority_voting_powers a.priority ≤ cur.current_voting_power) :
    should_vote cur now c = ⟨false, true, "comment is too young"⟩ ∧
    should_vote cur now' c = ⟨true, true, ""⟩ := by
  constructor
  · have hy : is_too_young cur now c = true := by
      simp [is_too_young, h2]
    simp [should_vote, h1, hy]
  · have hy : is_too_young cur now' c = false := by
      simp [is_too_young, not_lt.mpr h4]
    have ha : should_vote_author cur c = (true, "") := by
      simp [should_vote_author, h5, is_prioritized, ge_iff_le, h6]
    simp [should_vote, h3, hy, ha]

theorem c8_too_young_retry_witness :
    should_vote
        ⟨60, 172800,
          (fun p => match p with
            | Priority.low => 0.95
            | Priority.normal => 0.9
            | Priority.high => 0.8),
          [], ["spam"], [⟨"alice", false, 100, Priority.normal⟩], [], 0.95⟩
        30 ⟨"alice/p", "alice", "tech", 0, "", true, true, []⟩ =
      ⟨false, true, "comment is too young"⟩ ∧
    should_vote
        ⟨60, 172800,
          (fun p => match p with
            | Priority.low => 0.95
            | Priority.normal => 0.9
            | Priority.high => 0.8),
          [], ["spam"], [⟨"alice", false, 100, Priority.normal⟩], [], 0.95⟩
        90 ⟨"alice/p", "alice", "tech", 0, "", true, true, []⟩ =
      ⟨true, true, ""⟩ :=
  c8_too_young_retry _ _ 30 90 ⟨"alice", false, 100, Priority.normal⟩
    (by decide) (by decide) (by decide) (by decide) (by decide) (by norm_num)

/-! ### Helper lemmas for the rounded budget computation -/

theorem pyRound_le {q : Rat} {n : Int} (h : q ≤ (n : Rat)) : pyRound q ≤ n := by
  have hf : ⌊q⌋ ≤ n := by
    have := Int.floor_le_floor h
    rwa [Int.floor_intCast] at this
  have hq : (⌊q⌋ : Rat) ≤ q := Int.floor_le q
  have key : ¬(q - (⌊q⌋ : Rat) < 1/2) → ⌊q⌋ + 1 ≤ n := by
    intro hr
    rcases lt_or_eq_of_le hf with hlt | heq
    · omega
    · exfalso
      apply hr
      have : q ≤ (⌊q⌋ : Rat) := by
        rw [heq]
        exact h
      linarith
  simp only [pyRound]
  split_ifs with hc1 hc2 hc3 <;> first | exact hf | exact key hc1

theorem pyRound_mono {q q' : Rat} (h : q ≤ q') : pyRound q ≤ pyRound q' := by
  rcases lt_or_le ⌊q⌋ ⌊q'⌋ with hlt | hle
  · have h1 : pyRound q ≤ ⌊q⌋ + 1 := by
      simp only [pyRound]
      split_ifs <;> omega
    have h2 : ⌊q'⌋ ≤ pyRound q' := by
      simp only [pyRound]
      split_ifs <;> omega
    omega
  · have heq : ⌊q⌋ = ⌊q'⌋ := le_antisymm (Int.floor_le_floor h) hle
    have hd : q - (⌊q'⌋ : Rat) ≤ q' - (⌊q'⌋ : Rat) := by
      rw [← heq]
      linarith
    simp only [pyRound]
    rw [heq]
    split_ifs <;> first | omega | (exfalso; linarith)

theorem round4_le_one {q : Rat} (h : q ≤ 1) : round4 q ≤ 1 := by
  unfold round4
  rw [div_le_one (by norm_num : (0 : Rat) < 10000)]
  have harg : q * 10000 ≤ ((10000 : Int) : Rat) := by
    push_cast
    linarith
  exact_mod_cast pyRound_le harg

theorem round4_mono {q q' : Rat} (h : q ≤ q') : round4 q ≤ round4 q' := by
  unfold round4
  have := pyRound_mono (mul_le_mul_of_nonneg_right h (by norm_num : (0 : Rat) ≤ 10000))
  have hc : ((pyRound (q * 10000) : Rat)) ≤ ((pyRound (q' * 10000) : Rat)) := by
    exact_mod_cast this
  linarith

/-- C5 (counterexample): the computed current voting power is the
rounded value, not `min(1, rawLevel + elapsed/RegenPeriod)` itself: at
raw level `0` (0 of 10000 basis points) and elapsed time 1 second the
code computes `0.0`, while the unrounded formula gives `1/432000 ≠ 0`. -/
theorem c5_rounding_counterexample :
    update_voting_power 0 1 = 0 ∧
      min 1 ((0 : Rat) / 10000 + (1 : Rat) / 432000) ≠ 0 := by
  constructor
  · have hmin : min ((0 : Rat) + ((STEEMIT_100_PERCENT * 1 : Int) : Rat) /
        ((STEEMIT_VOTE_REGENERATION_SECONDS : Int) : Rat)) ((STEEMIT_100_PERCENT : Int) : Rat) =
        (5 : Rat) / 216 := by
      rw [min_eq_left (by norm_num [STEEMIT_100_PERCENT, STEEMIT_VOTE_REGENERATION_SECONDS])]
      norm_num [STEEMIT_100_PERCENT, STEEMIT_VOTE_REGENERATION_SECONDS]
    have hfl : ⌊(5 : Rat) / 216⌋ = 0 := by
      rw [Int.floor_eq_iff]
      norm_num
    simp only [update_voting_power, Int.cast_zero, hmin]
    simp only [round4, pyRound, STEEMIT_100_PERCENT]
    norm_num [hfl]
  · rw [min_eq_right (by norm_num)]
    norm_num

/-- C5 (amended): for raw levels in [0,1] (0..10000 basis points) and
elapsed time ≥ 0, the computed current voting power equals
`min(1, rawLevel + elapsed/RegenPeriod)` rounded to four decimal places
(half to even); it never exceeds 1 and, holding the raw level fixed, it
never decreases as the elapsed time increases. -/
theorem c5_budget_regeneration (vp e : Int) (h0 : 0 ≤ vp) (h1 : vp ≤ 10000) (he : 0 ≤ e) :
    update_voting_power vp e =
      round4 (min 1 ((vp : Rat) / 10000 + (e : Rat) / 432000)) ∧
    update_voting_power vp e ≤ 1 ∧
    ∀ e', e ≤ e' → update_voting_power vp e ≤ update_voting_power vp e' := by
  have harg : ∀ x : Int,
      min ((vp : Rat) + ((STEEMIT_100_PERCENT * x : Int) : Rat) /
          ((STEEMIT_VOTE_REGENERATION_SECONDS : Int) : Rat)) ((STEEMIT_100_PERCENT : Int) : Rat) /
          ((STEEMIT_100_PERCENT : Int) : Rat) =
        min 1 ((vp : Rat) / 10000 + (x : Rat) / 432000) := by
    intro x
    have hBC : ((STEEMIT_100_PERCENT : Int) : Rat) / ((STEEMIT_100_PERCENT : Int) : Rat) = 1 := by
      norm_num [STEEMIT_100_PERCENT]
    have hAC : ((vp : Rat) + ((STEEMIT_100_PERCENT * x : Int) : Rat) /
          ((STEEMIT_VOTE_REGENERATION_SECONDS : Int) : Rat)) / ((STEEMIT_100_PERCENT : Int) : Rat) =
        (vp : Rat) / 10000 + (x : Rat) / 432000 := by
      simp only [STEEMIT_100_PERCENT, STEEMIT_VOTE_REGENERATION_SECONDS]
      push_cast
      field_simp
      ring
    rw [← min_div_div_right (by norm_num [STEEMIT_100_PERCENT] :
        (0 : Rat) ≤ ((STEEMIT_100_PERCENT : Int) : Rat)), min_comm, hBC, hAC]
  have hrw : ∀ x : Int, update_voting_power vp x =
      round4 (min 1 ((vp : Rat) / 10000 + (x : Rat) / 432000)) := by
    intro x
    simp only [update_voting_power]
    rw [harg x]
  refine ⟨hrw e, ?_, ?_⟩
  · rw [hrw e]
    exact round4_le_one (min_le_left _ _)
  · intro e' hee
    rw [hrw e, hrw e']
    apply round4_mono
    apply min_le_min le_rfl
    have : (e : Rat) ≤ (e' : Rat) := by exact_mod_cast hee
    linarith

theorem c5_budget_regeneration_witness :
    update_voting_power 5000 100 =
        round4 (min 1 ((5000 : Rat) / 10000 + (100 : Rat) / 432000)) ∧
      update_voting_power 5000 100 ≤ 1 ∧
      ∀ e', 100 ≤ e' → update_voting_power 5000 100 ≤ update_voting_power 5000 e' :=
  c5_budget_regeneration 5000 100 (by decide) (by decide) (by decide)

/-! ### Helper lemmas for the rate window -/

theorem rwRecordAll_allotment (ts : List Int) : ∀ w : RateWindow,
    (rwRecordAll w ts).allotment = w.allotment := by
  induction ts with
  | nil => intro w; rfl
  | cons t ts ih =>
    intro w
    have step : rwRecordAll w (t :: ts) = rwRecordAll (rwRecord w t) ts := rfl
    rw [step, ih]
    rfl

theorem rwRecordAll_ledger (N : Nat) (ts : List Int) : ∀ l : List Int, l.length ≤ N →
    (rwRecordAll ⟨N, l⟩ ts).ledger = (l ++ ts).drop ((l ++ ts).length - N) := by
  induction ts with
  | nil =>
    intro l h
    simp [rwRecordAll, Nat.sub_eq_zero_of_le h]
  | cons t ts ih =>
    intro l h
    have step : rwRecordAll ⟨N, l⟩ (t :: ts) = rwRecordAll (rwRecord ⟨N, l⟩ t) ts := rfl
    by_cases hc : N < (l ++ [t]).length
    · have hl : l.length = N := by
        simp only [List.length_append, List.length_cons, List.length_nil] at hc
        omega
      have hr : rwRecord ⟨N, l⟩ t = ⟨N, (l ++ [t]).drop ((l ++ [t]).length - N)⟩ := by
        simp only [rwRecord]
        rw [if_pos hc]
      have hlen2 : ((l ++ [t]).drop ((l ++ [t]).length - N)).length ≤ N := by
        simp
        omega
      rw [step, hr, ih _ hlen2]
      have hd1 : (l ++ [t]).length - N = 1 := by
        simp
        omega
      have hassoc : (l ++ [t]) ++ ts = l ++ t :: ts := by simp
      rw [hd1, ← List.drop_append_of_le_length (by simp : 1 ≤ (l ++ [t]).length),
        List.drop_drop, hassoc]
      congr 1
      simp only [List.length_drop, List.length_append, List.length_cons, List.length_nil]
      omega
    · have hr : rwRecord ⟨N, l⟩ t = ⟨N, l ++ [t]⟩ := by
        simp only [rwRecord]
        rw [if_neg hc]
      have hlen2 : (l ++ [t]).length ≤ N := by
        simp only [List.length_append, List.length_cons, List.length_nil] at hc ⊢
        omega
      rw [step, hr, ih _ hlen2]
      rw [show (l ++ [t]) ++ ts = l ++ t :: ts by simp]

/-- C6: recording `N+1` timestamps into a rate window sized for `N`
leaves exactly the most recent `N` (the oldest is evicted), and both the
window itself and its utilization are reproduced bit-for-bit by
restoring from the persisted ledger. -/
theorem c6_rate_window_pruning (N : Nat) (ts : List Int) (h : ts.length = N + 1) :
    (rwRecordAll ⟨N, []⟩ ts).ledger = ts.drop 1 ∧
    (rwRecordAll ⟨N, []⟩ ts).ledger.length = N ∧
    rwRestore N (rwRecordAll ⟨N, []⟩ ts).ledger = rwRecordAll ⟨N, []⟩ ts ∧
    rwUtilization (rwRestore N (rwRecordAll ⟨N, []⟩ ts).ledger) =
      rwUtilization (rwRecordAll ⟨N, []⟩ ts) := by
  have hl := rwRecordAll_ledger N ts [] (by simp)
  simp only [List.nil_append] at hl
  rw [h, Nat.add_sub_cancel_left] at hl
  have h3 : rwRestore N (rwRecordAll ⟨N, []⟩ ts).ledger = rwRecordAll ⟨N, []⟩ ts := by
    have ha := rwRecordAll_allotment ts ⟨N, []⟩
    rcases hE : rwRecordAll ⟨N, []⟩ ts with ⟨a, led⟩
    rw [hE] at ha
    have ha' : a = N := ha
    subst ha'
    rfl
  refine ⟨hl, ?_, h3, by rw [h3]⟩
  rw [hl]
  simp [h]

theorem c6_rate_window_pruning_witness :
    ([ (1 : Int), 2, 3, 4 ] : List Int).length = 3 + 1 ∧
      (rwRecordAll ⟨3, []⟩ [1, 2, 3, 4]).ledger = ([1, 2, 3, 4] : List Int).drop 1 ∧
      (rwRecordAll ⟨3, []⟩ [1, 2, 3, 4]).ledger.length = 3 ∧
      rwRestore 3 (rwRecordAll ⟨3, []⟩ [1, 2, 3, 4]).ledger = rwRecordAll ⟨3, []⟩ [1, 2, 3, 4] ∧
      rwUtilization (rwRestore 3 (rwRecordAll ⟨3, []⟩ [1, 2, 3, 4]).ledger) =
        rwUtilization (rwRecordAll ⟨3, []⟩ [1, 2, 3, 4]) :=
  ⟨by decide, c6_rate_window_pruning 3 [1, 2, 3, 4] (by decide)⟩

/-! ### Helper lemmas for the tracking store -/

theorem markVotedRecord_idem (r : DBRecord) :
    markVotedRecord (markVotedRecord r) = markVotedRecord r := rfl

theorem rowsFind_nil (id : String) : rowsFind [] id = none := rfl

theorem rowsFind_cons (p : String × DBRecord) (rows : Rows) (id : String) :
    rowsFind (p :: rows) id = if p.1 = id then some p.2 else rowsFind rows id := by
  unfold rowsFind
  by_cases h : p.1 = id
  · rw [List.find?_cons_of_pos _ (by simp [h]), if_pos h]
    rfl
  · rw [List.find?_cons_of_neg _ (by simp [h]), if_neg h]

theorem rowsFind_eq_none_iff (rows : Rows) (id : String) :
    rowsFind rows id = none ↔ ∀ p ∈ rows, p.1 ≠ id := by
  induction rows with
  | nil => simp [rowsFind_nil]
  | cons q rows ih =>
    rw [rowsFind_cons]
    by_cases h : q.1 = id
    · simp [h]
    · simp [h, ih]

theorem rowsFind_isSome_iff (rows : Rows) (id : String) :
    (rowsFind rows id).isSome = true ↔ ∃ p ∈ rows, p.1 = id := by
  induction rows with
  | nil => simp [rowsFind_nil]
  | cons q rows ih =>
    rw [rowsFind_cons]
    by_cases h : q.1 = id
    · simp [h]
    · simp [h, ih]

theorem rowsFind_of_mem {rows : Rows} {p : String × DBRecord}
    (hnd : (rowsKeys rows).Nodup) (hp : p ∈ rows) : rowsFind rows p.1 = some p.2 := by
  induction rows with
  | nil => cases hp
  | cons q rows ih =>
    have hnd' : q.1 ∉ rowsKeys rows ∧ (rowsKeys rows).Nodup := by
      have : rowsKeys (q :: rows) = q.1 :: rowsKeys rows := rfl
      rw [this] at hnd
      exact List.nodup_cons.mp hnd
    rw [rowsFind_cons]
    rcases List.mem_cons.mp hp with rfl | hmem
    · rw [if_pos rfl]
    · have hq : q.1 ≠ p.1 := by
        intro hEq
        apply hnd'.1
        rw [hEq]
        exact List.mem_map_of_mem _ hmem
      rw [if_neg hq]
      exact ih hnd'.2 hmem

theorem rowsKeys_map_cond (rows : Rows) (id : String) (g : DBRecord → DBRecord) :
    rowsKeys (rows.map (fun p => if p.1 == id then (p.1, g p.2) else p)) = rowsKeys rows := by
  induction rows with
  | nil => rfl
  | cons q rows ih =>
    simp only [List.map_cons, rowsKeys] at ih ⊢
    rw [ih]
    by_cases h : q.1 = id
    · simp [h]
    · simp [h]

theorem rowsFind_map_cond (rows : Rows) (id id' : String) (g : DBRecord → DBRecord) :
    rowsFind (rows.map (fun p => if p.1 == id then (p.1, g p.2) else p)) id' =
      if id' = id then (rowsFind rows id').map g else rowsFind rows id' := by
  induction rows with
  | nil => simp [rowsFind_nil]
  | cons q rows ih =>
    simp only [List.map_cons]
    by_cases hq : q.1 = id
    · rw [show (if (q.1 == id) = true then (q.1, g q.2) else q) = (q.1, g q.2) from by simp [hq]]
      by_cases hid' : id' = id
      · rw [rowsFind_cons, rowsFind_cons, if_pos hid']
        by_cases hhead : q.1 = id'
        · rw [if_pos hhead, if_pos hhead]
          rfl
        · rw [if_neg hhead, if_neg hhead, ih, if_pos hid']
      · have hhead : q.1 ≠ id' := fun h => hid' (h.symm.trans hq)
        rw [rowsFind_cons, rowsFind_cons, if_neg hhead, if_neg hhead, ih, if_neg hid']
    · rw [show (if (q.1 == id) = true then (q.1, g q.2) else q) = q from by simp [hq]]
      by_cases hhead : q.1 = id'
      · have hid' : id' ≠ id := fun h => hq (hhead.trans h)
        rw [rowsFind_cons, if_pos hhead, if_neg hid', rowsFind_cons, if_pos hhead]
      · rw [rowsFind_cons, if_neg hhead, ih]
        by_cases hid' : id' = id
        · rw [if_pos hid', if_pos hid', rowsFind_cons, if_neg hhead]
        · rw [if_neg hid', if_neg hid', rowsFind_cons, if_neg hhead]

theorem rowsFind_filter_keep (rows : Rows) (q : String × DBRecord → Bool) (id : String)
    (h : ∀ p ∈ rows, p.1 = id → q p = true) :
    rowsFind (rows.filter q) id = rowsFind rows id := by
  induction rows with
  | nil => rfl
  | cons p rows ih =>
    have ih' := ih (fun p hp => h p (List.mem_cons_of_mem _ hp))
    by_cases hp : p.1 = id
    · rw [List.filter_cons_of_pos (h p (List.mem_cons_self _ _) hp), rowsFind_cons,
        rowsFind_cons, if_pos hp, if_pos hp]
    · by_cases hq : q p = true
      · rw [List.filter_cons_of_pos hq, rowsFind_cons, rowsFind_cons, if_neg hp, if_neg hp, ih']
      · rw [List.filter_cons_of_neg (by simpa using hq), rowsFind_cons, if_neg hp, ih']

theorem rowsFind_filter_drop (rows : Rows) (q : String × DBRecord → Bool) (id : String)
    (r : DBRecord) (hnd : (rowsKeys rows).Nodup) (hfind : rowsFind rows id = some r)
    (hq : q (id, r) = false) : rowsFind (rows.filter q) id = none := by
  rw [rowsFind_eq_none_iff]
  intro p hp hpid
  have hmem : p ∈ rows := List.mem_of_mem_filter hp
  have hfound : rowsFind rows p.1 = some p.2 := rowsFind_of_mem hnd hmem
  rw [hpid, hfind] at hfound
  have hpr : p = (id, r) := by
    rcases p with ⟨a, b⟩
    simp only at hpid
    cases Option.some.inj hfound
    rw [hpid]
  have := List.of_mem_filter hp
  rw [hpr, hq] at this
  cases this

theorem rowsKeys_filter_nodup (rows : Rows) (q : String × DBRecord → Bool)
    (hnd : (rowsKeys rows).Nodup) : (rowsKeys (rows.filter q)).Nodup :=
  List.Nodup.sublist (List.Sublist.map _ (List.filter_sublist rows)) hnd

/-! ### Behaviour of the voted-batch fold -/

theorem foldlM_setVoted_ok (ids : List String) : ∀ rows : Rows,
    (∀ id ∈ ids, (rowsFind rows id).isSome = true) →
    ∃ rows', ids.foldlM setVoted rows = some rows' := by
  induction ids with
  | nil => exact fun rows _ => ⟨rows, rfl⟩
  | cons i ids ih =>
    intro rows h
    have hi : (rowsFind rows i).isSome = true := h i (List.mem_cons_self _ _)
    have hstep : setVoted rows i =
        some (rows.map (fun p => if p.1 == i then (p.1, markVotedRecord p.2) else p)) := by
      unfold setVoted
      rw [if_pos hi]
    have hrest : ∀ id ∈ ids,
        (rowsFind (rows.map (fun p => if p.1 == i then (p.1, markVotedRecord p.2) else p))
          id).isSome = true := by
      intro id hid
      rw [rowsFind_map_cond]
      by_cases hcase : id = i
      · rw [if_pos hcase]
        have hs := h id (List.mem_cons_of_mem _ hid)
        cases hx : rowsFind rows id
        · rw [hx] at hs
          cases hs
        · rfl
      · rw [if_neg hcase]
        exact h id (List.mem_cons_of_mem _ hid)
    obtain ⟨rows', hrows'⟩ := ih _ hrest
    exact ⟨rows', by rw [List.foldlM_cons, hstep, Option.bind_eq_bind, Option.some_bind, hrows']⟩

theorem foldlM_setVoted_find (ids : List String) : ∀ rows rows' : Rows,
    ids.foldlM setVoted rows = some rows' →
    (∀ id', rowsFind rows' id' =
      if id' ∈ ids then (rowsFind rows id').map markVotedRecord else rowsFind rows id') ∧
    rowsKeys rows' = rowsKeys rows := by
  induction ids with
  | nil =>
    intro rows rows' h
    cases h
    simp
  | cons i ids ih =>
    intro rows rows' h
    rw [List.foldlM_cons] at h
    rcases hstep : setVoted rows i with _ | rows₀
    · rw [hstep] at h
      cases h
    · rw [hstep, Option.bind_eq_bind, Option.some_bind] at h
      have hrows₀ : rows₀ = rows.map (fun p => if p.1 == i then (p.1, markVotedRecord p.2) else p) := by
        unfold setVoted at hstep
        by_cases hi : (rowsFind rows i).isSome = true
        · rw [if_pos hi] at hstep
          exact (Option.some.inj hstep).symm
        · rw [if_neg hi] at hstep
          cases hstep
      obtain ⟨hfind, hkeys⟩ := ih rows₀ rows' h
      constructor
      · intro id'
        rw [hfind id']
        subst hrows₀
        rw [rowsFind_map_cond]
        by_cases h2 : id' = i
        · by_cases h1 : id' ∈ ids
          · rw [if_pos h2, if_pos h1,
              if_pos (show id' ∈ i :: ids from List.mem_cons_of_mem _ h1)]
            cases hx : rowsFind rows id' <;> rfl
          · rw [if_pos h2, if_neg h1,
              if_pos (show id' ∈ i :: ids from by rw [h2]; exact List.mem_cons_self _ _)]
        · by_cases h1 : id' ∈ ids
          · rw [if_neg h2, if_pos h1,
              if_pos (show id' ∈ i :: ids from List.mem_cons_of_mem _ h1)]
          · rw [if_neg h2, if_neg h1, if_neg (show ¬id' ∈ i :: ids from by simp [h1, h2])]
      · rw [hkeys]
        subst hrows₀
        exact rowsKeys_map_cond rows i markVotedRecord

theorem rowsFind_append (rows l₂ : Rows) (id : String) :
    rowsFind (rows ++ l₂) id = (rowsFind rows id).or (rowsFind l₂ id) := by
  unfold rowsFind
  rw [List.find?_append]
  cases h : rows.find? (fun p => p.1 == id) <;> simp

theorem mem_of_rowsFind {rows : Rows} {id : String} {r : DBRecord}
    (h : rowsFind rows id = some r) : (id, r) ∈ rows := by
  unfold rowsFind at h
  cases hf : rows.find? (fun p => p.1 == id) with
  | none =>
    rw [hf] at h
    cases h
  | some p₀ =>
    rw [hf] at h
    have hmem := List.mem_of_find?_eq_some hf
    have hval : p₀.2 = r := by
      simpa using h
    have hk : p₀.1 = id := by
      simpa using List.find?_some hf
    rcases p₀ with ⟨a, b⟩
    simp only at hval hk
    rw [← hk, ← hval]
    exact hmem

theorem rowsFind_some_of_filter {rows : Rows} {q : String × DBRecord → Bool} {id : String}
    {r : DBRecord} (hnd : (rowsKeys rows).Nodup)
    (h : rowsFind (rows.filter q) id = some r) : rowsFind rows id = some r := by
  have hmem : (id, r) ∈ rows.filter q := mem_of_rowsFind h
  have : (id, r) ∈ rows := List.mem_of_mem_filter hmem
  exact rowsFind_of_mem hnd this

theorem rowsFind_removeRows_self {rows : Rows} {id : String} {r : DBRecord}
    (h : rowsFind (removeRows id rows) id = some r) :
    ¬(r.tracked = true ∧ r.voted = false) := by
  have hmem : (id, r) ∈ removeRows id rows := mem_of_rowsFind h
  have hq := List.of_mem_filter hmem
  rintro ⟨ht, hv⟩
  simp [ht, hv] at hq

theorem rowsKeys_removeRows_nodup (rows : Rows) (id : String)
    (hnd : (rowsKeys rows).Nodup) : (rowsKeys (removeRows id rows)).Nodup :=
  rowsKeys_filter_nodup rows _ hnd

theorem rowsFind_removeRows_ne {rows : Rows} {id id' : String} (hne : id' ≠ id) :
    rowsFind (removeRows id rows) id' = rowsFind rows id' := by
  apply rowsFind_filter_keep
  intro p _ hpid
  have : (p.1 == id) = false := by
    rw [hpid]
    simpa using hne
  rw [this]
  rfl

theorem remove_tracked_decomp (ids : List String) : ∀ s : DBState,
    remove_tracked_comments ids s =
      ⟨ids.foldl (fun r i => removeRows i r) s.rows,
       ids.foldl (fun m i => m.filter (fun u => u.identifier != i)) s.mem⟩ := by
  induction ids with
  | nil => intro s; rfl
  | cons i ids ih =>
    intro s
    have step : remove_tracked_comments (i :: ids) s =
        remove_tracked_comments ids (removeOne s i) := rfl
    rw [step, ih]
    rfl

theorem mem_foldl_filter (ids : List String) : ∀ (mem : List TrackedComment) (t : TrackedComment),
    t ∈ ids.foldl (fun m i => m.filter (fun u => u.identifier != i)) mem ↔
      t ∈ mem ∧ t.identifier ∉ ids := by
  induction ids with
  | nil => simp
  | cons i ids ih =>
    intro mem t
    rw [List.foldl_cons, ih]
    simp only [List.mem_filter, List.mem_cons, bne_iff_ne, ne_eq]
    constructor
    · rintro ⟨⟨h1, h2⟩, h3⟩
      exact ⟨h1, by simp [h2, h3]⟩
    · rintro ⟨h1, h2⟩
      simp only [not_or] at h2
      exact ⟨⟨h1, h2.1⟩, h2.2⟩

theorem foldl_removeRows_nodup (ids : List String) : ∀ rows : Rows,
    (rowsKeys rows).Nodup →
    (rowsKeys (ids.foldl (fun r i => removeRows i r) rows)).Nodup := by
  induction ids with
  | nil => exact fun rows h => h
  | cons i ids ih =>
    intro rows h
    rw [List.foldl_cons]
    exact ih _ (rowsKeys_removeRows_nodup rows i h)

theorem rowsFind_foldl_removeRows_ne (ids : List String) : ∀ (rows : Rows) (id : String),
    id ∉ ids →
    rowsFind (ids.foldl (fun r i => removeRows i r) rows) id = rowsFind rows id := by
  induction ids with
  | nil => intro rows id _; rfl
  | cons i ids ih =>
    intro rows id hid
    rw [List.foldl_cons, ih _ _ (fun h => hid (List.mem_cons_of_mem _ h)),
      rowsFind_removeRows_ne (fun h => hid (by rw [h]; exact List.mem_cons_self _ _))]

theorem rowsFind_foldl_removeRows_some (ids : List String) : ∀ (rows : Rows) (id : String)
    (r : DBRecord), (rowsKeys rows).Nodup →
    rowsFind (ids.foldl (fun r i => removeRows i r) rows) id = some r →
    rowsFind rows id = some r := by
  induction ids with
  | nil => exact fun rows id r _ h => h
  | cons i ids ih =>
    intro rows id r hnd h
    rw [List.foldl_cons] at h
    exact rowsFind_some_of_filter hnd (ih _ _ _ (rowsKeys_removeRows_nodup rows i hnd) h)

theorem rowsFind_foldl_removeRows_mem (ids : List String) : ∀ (rows : Rows) (id : String)
    (r : DBRecord), (rowsKeys rows).Nodup → id ∈ ids →
    rowsFind (ids.foldl (fun r i => removeRows i r) rows) id = some r →
    ¬(r.tracked = true ∧ r.voted = false) := by
  induction ids with
  | nil => intro rows id r _ h; cases h
  | cons i ids ih =>
    intro rows id r hnd hid h
    rw [List.foldl_cons] at h
    by_cases hcase : id = i
    · subst hcase
      have := rowsFind_foldl_removeRows_some ids _ _ _ (rowsKeys_removeRows_nodup rows id hnd) h
      exact rowsFind_removeRows_self this
    · exact ih _ _ _ (rowsKeys_removeRows_nodup rows i hnd)
        (by rcases List.mem_cons.mp hid with h' | h' <;> [exact absurd h' hcase; exact h']) h

theorem foldl_removeRows_of_voted (ids : List String) : ∀ rows : Rows,
    (∀ p ∈ rows, p.1 ∈ ids → ¬(p.2.tracked = true ∧ p.2.voted = false)) →
    ids.foldl (fun r i => removeRows i r) rows = rows := by
  induction ids with
  | nil => intro rows _; rfl
  | cons i ids ih =>
    intro rows h
    rw [List.foldl_cons]
    have hself : removeRows i rows = rows := by
      apply List.filter_eq_self.mpr
      intro p hp
      by_cases hkey : p.1 = i
      · have hnt := h p hp (by rw [hkey]; exact List.mem_cons_self _ _)
        by_cases ht : p.2.tracked = true
        · by_cases hv : p.2.voted = true
          · simp [ht, hv]
          · have hv' : p.2.voted = false := by simpa using hv
            exact absurd ⟨ht, hv'⟩ hnt
        · have ht' : p.2.tracked = false := by simpa using ht
          simp [ht']
      · simp [hkey]
    rw [hself]
    exact ih rows (fun p hp hmem => h p hp (List.mem_cons_of_mem _ hmem))

theorem dictSet_append {mem : List TrackedComment} {t : TrackedComment}
    (h : ∀ u ∈ mem, u.identifier ≠ t.identifier) : dictSet mem t = mem ++ [t] := by
  unfold dictSet
  rw [if_neg]
  intro hc
  rw [List.any_eq_true] at hc
  obtain ⟨u, hu, hb⟩ := hc
  exact h u hu (by simpa using hb)

/-- C1 (counterexample): after tracking identifier `"a"` and then
skipping it (`remove_tracked_comments`), the durable record is deleted,
so a second Insert returns `true` and re-creates the record — not
`false` as the claim requires for a previously-skipped identifier. -/
theorem c1_skip_reinsert_counterexample :
    rowsFind (remove_tracked_comments ["a"]
        (add_comment "a" "author" "alice" ⟨[], []⟩).2).rows "a" = none ∧
      (add_comment "a" "author" "alice"
        (remove_tracked_comments ["a"]
          (add_comment "a" "author" "alice" ⟨[], []⟩).2)).1 = true := by
  constructor
  · rfl
  · rfl

/-- C1 (amended): while a record for the identifier exists — tracked or
voted — a subsequent Insert returns `false` and leaves both the durable
store and the in-memory working set unchanged; however `MarkSkipped`
(`remove_tracked_comments`) deletes a tracked record outright, after
which a new Insert for the same identifier succeeds again. -/
theorem c1_insert_unique (s : DBState) (id rt rv : String) :
    ((rowsFind s.rows id).isSome = true → add_comment id rt rv s = (false, s)) ∧
    (∀ r, rowsFind s.rows id = some r → r.tracked = true → r.voted = false →
      (rowsKeys s.rows).Nodup →
      rowsFind (remove_tracked_comments [id] s).rows id = none ∧
      (add_comment id rt rv (remove_tracked_comments [id] s)).1 = true) := by
  constructor
  · intro h
    unfold add_comment
    rw [if_pos h]
  · intro r hfind ht hv hnd
    have hrows : (remove_tracked_comments [id] s).rows = removeRows id s.rows := rfl
    have hnone : rowsFind (removeRows id s.rows) id = none := by
      apply rowsFind_filter_drop s.rows _ id r hnd hfind
      simp [ht, hv]
    refine ⟨by rw [hrows]; exact hnone, ?_⟩
    unfold add_comment
    rw [hrows, hnone]
    rfl

theorem c1_insert_unique_witness :
    (rowsFind ([("a", ⟨"author", "alice", false, true⟩)] : Rows) "a").isSome = true ∧
      add_comment "a" "author" "alice" ⟨[("a", ⟨"author", "alice", false, true⟩)], []⟩ =
        (false, ⟨[("a", ⟨"author", "alice", false, true⟩)], []⟩) :=
  ⟨rfl, (c1_insert_unique ⟨[("a", ⟨"author", "alice", false, true⟩)], []⟩ "a" "author" "alice").1
    rfl⟩

/-- C3 (counterexample): `update_voted_comments` on an identifier with
no durable record raises `DoesNotExist` (modelled as `none`) instead of
ignoring the identifier without error. -/
theorem c3_missing_identifier_raises :
    update_voted_comments ["a"] ⟨[], []⟩ = none := rfl

/-- Full characterisation of a successful `update_voted_comments`
batch, shared by the voted-batch and dispatch-cycle theorems. -/
theorem update_voted_spec (ids : List String) (s : DBState)
    (hnd : (rowsKeys s.rows).Nodup)
    (h : ∀ id ∈ ids, (rowsFind s.rows id).isSome = true) :
    ∃ s', update_voted_comments ids s = some s' ∧
      (∀ id ∈ ids, rowsFind s'.rows id = (rowsFind s.rows id).map markVotedRecord) ∧
      (∀ id, id ∉ ids → rowsFind s'.rows id = rowsFind s.rows id) ∧
      (∀ t, t ∈ s'.mem ↔ t ∈ s.mem ∧ t.identifier ∉ ids) ∧
      (rowsKeys s'.rows).Nodup := by
  obtain ⟨rows₀, hrows₀⟩ := foldlM_setVoted_ok ids s.rows h
  obtain ⟨hfind, hkeys⟩ := foldlM_setVoted_find ids s.rows rows₀ hrows₀
  have hnd₀ : (rowsKeys rows₀).Nodup := by
    rw [hkeys]
    exact hnd
  have hvoted : ∀ p ∈ rows₀, p.1 ∈ ids → ¬(p.2.tracked = true ∧ p.2.voted = false) := by
    intro p hp hpids
    have hfp : rowsFind rows₀ p.1 = some p.2 := rowsFind_of_mem hnd₀ hp
    rw [hfind p.1, if_pos hpids] at hfp
    cases hr₁ : rowsFind s.rows p.1 with
    | none =>
      rw [hr₁] at hfp
      cases hfp
    | some r₁ =>
      rw [hr₁] at hfp
      have hpm : p.2 = markVotedRecord r₁ := by simpa using hfp.symm
      rw [hpm]
      rintro ⟨_, hv⟩
      simp [markVotedRecord] at hv
  have hrows_eq : ids.foldl (fun r i => removeRows i r) rows₀ = rows₀ :=
    foldl_removeRows_of_voted ids rows₀ hvoted
  refine ⟨remove_tracked_comments ids ⟨rows₀, s.mem⟩, ?_, ?_, ?_, ?_, ?_⟩
  · unfold update_voted_comments
    rw [hrows₀]
    rfl
  · intro id hid
    rw [remove_tracked_decomp]
    simp only
    rw [hrows_eq, hfind id, if_pos hid]
  · intro id hid
    rw [remove_tracked_decomp]
    simp only
    rw [hrows_eq, hfind id, if_neg hid]
  · intro t
    rw [remove_tracked_decomp]
    simp only
    exact mem_foldl_filter ids s.mem t
  · rw [remove_tracked_decomp]
    simp only
    rw [hrows_eq]
    exact hnd₀

/-- C3 (amended): when every listed identifier has a durable record,
`update_voted_comments` succeeds as one batch: each listed identifier's
record is set to `tracked=False, voted=True` (a record that is already
voted is rewritten to the same terminal state) and the identifier is
removed from the in-memory working set; the records and working-set
entries of all other identifiers are unchanged.  A listed identifier
with no record raises (the batch fails). -/
theorem c3_mark_voted_batch (ids : List String) (s : DBState)
    (hnd : (rowsKeys s.rows).Nodup)
    (h : ∀ id ∈ ids, (rowsFind s.rows id).isSome = true) :
    ∃ s', update_voted_comments ids s = some s' ∧
      (∀ id ∈ ids, rowsFind s'.rows id = (rowsFind s.rows id).map markVotedRecord) ∧
      (∀ id, id ∉ ids → rowsFind s'.rows id = rowsFind s.rows id) ∧
      (∀ t, t ∈ s'.mem ↔ t ∈ s.mem ∧ t.identifier ∉ ids) := by
  obtain ⟨s', h1, h2, h3, h4, _⟩ := update_voted_spec ids s hnd h
  exact ⟨s', h1, h2, h3, h4⟩

theorem c3_mark_voted_batch_witness :
    ∃ s', update_voted_comments ["a"]
        ⟨[("a", ⟨"author", "alice", true, false⟩)], [⟨"a", "author", "alice"⟩]⟩ = some s' ∧
      (∀ id ∈ ["a"], rowsFind s'.rows id =
        (rowsFind ([("a", ⟨"author", "alice", true, false⟩)] : Rows) id).map markVotedRecord) ∧
      (∀ id, id ∉ ["a"] → rowsFind s'.rows id =
        rowsFind ([("a", ⟨"author", "alice", true, false⟩)] : Rows) id) ∧
      (∀ t, t ∈ s'.mem ↔
        t ∈ [(⟨"a", "author", "alice"⟩ : TrackedComment)] ∧ t.identifier ∉ ["a"]) :=
  c3_mark_voted_batch ["a"] ⟨[("a", ⟨"author", "alice", true, false⟩)], [⟨"a", "author", "alice"⟩]⟩
    (by simp [rowsKeys]) (by intro id hid; simp at hid; subst hid; rfl)

/-! ### Behaviour of the dispatch loop -/

theorem foldlM_setVoted_isSome (ids : List String) : ∀ rows rows' : Rows,
    ids.foldlM setVoted rows = some rows' →
    ∀ id ∈ ids, (rowsFind rows id).isSome = true := by
  induction ids with
  | nil =>
    intro rows rows' _ id hid
    cases hid
  | cons i rest ih =>
    intro rows rows' h id hid
    rw [List.foldlM_cons] at h
    rcases hstep : setVoted rows i with _ | rows₀
    · rw [hstep] at h
      cases h
    · rw [hstep, Option.bind_eq_bind, Option.some_bind] at h
      have hi : (rowsFind rows i).isSome = true := by
        unfold setVoted at hstep
        by_cases hi : (rowsFind rows i).isSome = true
        · exact hi
        · rw [if_neg hi] at hstep
          cases hstep
      have hrows₀ : rows₀ =
          rows.map (fun p => if p.1 == i then (p.1, markVotedRecord p.2) else p) := by
        unfold setVoted at hstep
        rw [if_pos hi] at hstep
        exact (Option.some.inj hstep).symm
      rcases List.mem_cons.mp hid with rfl | hmem
      · exact hi
      · have := ih rows₀ rows' h id hmem
        subst hrows₀
        rw [rowsFind_map_cond] at this
        by_cases hcase : id = i
        · rw [hcase]
          exact hi
        · rw [if_neg hcase] at this
          exact this

theorem update_voted_isSome (ids : List String) (s : DBState) (s' : DBState)
    (h : update_voted_comments ids s = some s') :
    ∀ id ∈ ids, (rowsFind s.rows id).isSome = true := by
  unfold update_voted_comments at h
  rcases hf : ids.foldlM setVoted s.rows with _ | rows₀
  · rw [hf] at h
    cases h
  · exact foldlM_setVoted_isSome ids s.rows rows₀ hf

theorem voteLoop_mem_voted (dc : String → ShouldVoteR) (bc : String → BResult) :
    ∀ (ids voted old : List String),
      voteLoop dc bc ids = Except.ok (voted, old) →
      ∀ id ∈ ids, (dc id).vote = true → id ∈ voted := by
  intro ids
  induction ids with
  | nil =>
    intro voted old _ id hid
    cases hid
  | cons i rest ih =>
    intro voted old h id hid hv
    simp only [voteLoop] at h
    by_cases hvi : (dc i).vote = true
    · rw [if_pos hvi] at h
      cases hvb : vote bc i with
      | error e =>
        simp only [hvb] at h
        exact Except.noConfusion h
      | ok u =>
        cases u
        cases hrest : voteLoop dc bc rest with
        | error e =>
          simp only [hvb, hrest] at h
          exact Except.noConfusion h
        | ok vo =>
          rcases vo with ⟨v, o⟩
          simp only [hvb, hrest, Except.ok.injEq, Prod.mk.injEq] at h
          obtain ⟨h1, _⟩ := h
          rw [← h1]
          rcases List.mem_cons.mp hid with rfl | hmem'
          · exact List.mem_cons_self _ _
          · exact List.mem_cons_of_mem _ (ih v o hrest id hmem' hv)
    · rw [if_neg hvi] at h
      have hidr : id ∈ rest := by
        rcases List.mem_cons.mp hid with rfl | hmem'
        · exact absurd hv hvi
        · exact hmem'
      by_cases hti : (!(dc i).track) = true
      · rw [if_pos hti] at h
        cases hrest : voteLoop dc bc rest with
        | error e =>
          simp only [hrest] at h
          exact Except.noConfusion h
        | ok vo =>
          rcases vo with ⟨v, o⟩
          simp only [hrest, Except.ok.injEq, Prod.mk.injEq] at h
          obtain ⟨h1, _⟩ := h
          rw [← h1]
          exact ih v o hrest id hidr hv
      · rw [if_neg hti] at h
        exact ih voted old h id hidr hv

theorem voteLoop_old_not_vote (dc : String → ShouldVoteR) (bc : String → BResult) :
    ∀ (ids voted old : List String),
      voteLoop dc bc ids = Except.ok (voted, old) →
      ∀ id ∈ old, (dc id).vote = false := by
  intro ids
  induction ids with
  | nil =>
    intro voted old h id hid
    simp only [voteLoop, Except.ok.injEq, Prod.mk.injEq] at h
    obtain ⟨_, h2⟩ := h
    rw [← h2] at hid
    cases hid
  | cons i rest ih =>
    intro voted old h id hid
    simp only [voteLoop] at h
    by_cases hvi : (dc i).vote = true
    · rw [if_pos hvi] at h
      cases hvb : vote bc i with
      | error e =>
        simp only [hvb] at h
        exact Except.noConfusion h
      | ok u =>
        cases u
        cases hrest : voteLoop dc bc rest with
        | error e =>
          simp only [hvb, hrest] at h
          exact Except.noConfusion h
        | ok vo =>
          rcases vo with ⟨v, o⟩
          simp only [hvb, hrest, Except.ok.injEq, Prod.mk.injEq] at h
          obtain ⟨_, h2⟩ := h
          rw [← h2] at hid
          exact ih v o hrest id hid
    · rw [if_neg hvi] at h
      by_cases hti : (!(dc i).track) = true
      · rw [if_pos hti] at h
        cases hrest : voteLoop dc bc rest with
        | error e =>
          simp only [hrest] at h
          exact Except.noConfusion h
        | ok vo =>
          rcases vo with ⟨v, o⟩
          simp only [hrest, Except.ok.injEq, Prod.mk.injEq] at h
          obtain ⟨_, h2⟩ := h
          rw [← h2] at hid
          rcases List.mem_cons.mp hid with rfl | hmem'
          · simpa using hvi
          · exact ih v o hrest id hmem'
      · rw [if_neg hti] at h
        exact ih voted old h id hid

theorem voteLoop_error (dc : String → ShouldVoteR) (bc : String → BResult) :
    ∀ (ids : List String) (id : String) (em : String), id ∈ ids →
      (dc id).vote = true → vote bc id = Except.error em →
      ∃ e, voteLoop dc bc ids = Except.error e := by
  intro ids
  induction ids with
  | nil =>
    intro id em hid
    cases hid
  | cons i rest ih =>
    intro id em hid hv hverr
    by_cases hii : i = id
    · subst hii
      exact ⟨em, by simp only [voteLoop, if_pos hv, hverr]⟩
    · have hidr : id ∈ rest := by
        rcases List.mem_cons.mp hid with rfl | hmem'
        · exact absurd rfl hii
        · exact hmem'
      obtain ⟨e₀, he₀⟩ := ih id em hidr hv hverr
      by_cases hvi : (dc i).vote = true
      · cases hvb : vote bc i with
        | error e1 => exact ⟨e1, by simp only [voteLoop, if_pos hvi, hvb]⟩
        | ok u =>
          cases u
          exact ⟨e₀, by simp only [voteLoop, if_pos hvi, hvb, he₀]⟩
      · by_cases hti : (!(dc i).track) = true
        · exact ⟨e₀, by simp only [voteLoop, if_neg hvi, if_pos hti, he₀]⟩
        · exact ⟨e₀, by simp only [voteLoop, if_neg hvi, if_neg hti, he₀]⟩

theorem voteLoop_ok_exists (dc : String → ShouldVoteR) (bc : String → BResult) :
    ∀ ids : List String,
      (∀ i ∈ ids, (dc i).vote = true → vote bc i = Except.ok ()) →
      ∃ voted old, voteLoop dc bc ids = Except.ok (voted, old) := by
  intro ids
  induction ids with
  | nil => exact fun _ => ⟨[], [], rfl⟩
  | cons i rest ih =>
    intro h
    obtain ⟨v, o, hrest⟩ := ih (fun j hj => h j (List.mem_cons_of_mem _ hj))
    by_cases hvi : (dc i).vote = true
    · have hok := h i (List.mem_cons_self _ _) hvi
      exact ⟨i :: v, o, by simp only [voteLoop, if_pos hvi, hok, hrest]⟩
    · by_cases hti : (!(dc i).track) = true
      · exact ⟨v, i :: o, by simp only [voteLoop, if_neg hvi, if_pos hti, hrest]⟩
      · exact ⟨v, o, by simp only [voteLoop, if_neg hvi, if_neg hti, hrest]⟩

theorem voteLoop_voted_mem (dc : String → ShouldVoteR) (bc : String → BResult) :
    ∀ (ids voted old : List String),
      voteLoop dc bc ids = Except.ok (voted, old) → ∀ i ∈ voted, i ∈ ids := by
  intro ids
  induction ids with
  | nil =>
    intro voted old h i hi
    simp only [voteLoop, Except.ok.injEq, Prod.mk.injEq] at h
    obtain ⟨h1, _⟩ := h
    rw [← h1] at hi
    cases hi
  | cons j rest ih =>
    intro voted old h i hi
    simp only [voteLoop] at h
    by_cases hvj : (dc j).vote = true
    · rw [if_pos hvj] at h
      cases hvb : vote bc j with
      | error e =>
        simp only [hvb] at h
        exact Except.noConfusion h
      | ok u =>
        cases u
        cases hrest : voteLoop dc bc rest with
        | error e =>
          simp only [hvb, hrest] at h
          exact Except.noConfusion h
        | ok vo =>
          rcases vo with ⟨v, o⟩
          simp only [hvb, hrest, Except.ok.injEq, Prod.mk.injEq] at h
          obtain ⟨h1, _⟩ := h
          rw [← h1] at hi
          rcases List.mem_cons.mp hi with rfl | hmem'
          · exact List.mem_cons_self _ _
          · exact List.mem_cons_of_mem _ (ih v o hrest i hmem')
    · rw [if_neg hvj] at h
      by_cases htj : (!(dc j).track) = true
      · rw [if_pos htj] at h
        cases hrest : voteLoop dc bc rest with
        | error e =>
          simp only [hrest] at h
          exact Except.noConfusion h
        | ok vo =>
          rcases vo with ⟨v, o⟩
          simp only [hrest, Except.ok.injEq, Prod.mk.injEq] at h
          obtain ⟨h1, _⟩ := h
          rw [← h1] at hi
          exact List.mem_cons_of_mem _ (ih v o hrest i hi)
      · rw [if_neg htj] at h
        exact List.mem_cons_of_mem _ (ih voted old h i hi)

/-! ### Persistence of a voted record across later store operations -/

theorem mem_dictSet {mem : List TrackedComment} {t u : TrackedComment}
    (h : u ∈ dictSet mem t) : u = t ∨ u ∈ mem := by
  unfold dictSet at h
  split at h
  · obtain ⟨v, hv, hvu⟩ := List.mem_map.mp h
    by_cases hc : (v.identifier == t.identifier) = true
    · rw [if_pos hc] at hvu
      exact Or.inl hvu.symm
    · rw [if_neg hc] at hvu
      rw [← hvu]
      exact Or.inr hv
  · rcases List.mem_append.mp h with h1 | h2
    · exact Or.inr h1
    · simp only [List.mem_singleton] at h2
      exact Or.inl h2

theorem rowsFind_removeRows_keep {rows : Rows} {id : String} {r : DBRecord}
    (hnd : (rowsKeys rows).Nodup) (hr : rowsFind rows id = some r)
    (hterm : ¬(r.tracked = true ∧ r.voted = false)) :
    rowsFind (removeRows id rows) id = some r := by
  have h1 : rowsFind (removeRows id rows) id = rowsFind rows id := by
    apply rowsFind_filter_keep
    intro p hp hpid
    have hfp := rowsFind_of_mem hnd hp
    rw [hpid, hr] at hfp
    have hpr : p.2 = r := (Option.some.inj hfp).symm
    show (!(p.1 == id && p.2.tracked && !p.2.voted)) = true
    rw [hpid, hpr]
    by_cases htr : r.tracked = true
    · have hvd : r.voted = true := by
        by_cases hvd : r.voted = true
        · exact hvd
        · exact absurd ⟨htr, by simpa using hvd⟩ hterm
      simp [htr, hvd]
    · have htr' : r.tracked = false := by simpa using htr
      simp [htr']
  rw [h1]
  exact hr

theorem rowsFind_foldl_removeRows_keep (ids : List String) :
    ∀ (rows : Rows) (id : String) (r : DBRecord),
      (rowsKeys rows).Nodup → rowsFind rows id = some r →
      ¬(r.tracked = true ∧ r.voted = false) →
      rowsFind (ids.foldl (fun r i => removeRows i r) rows) id = some r := by
  induction ids with
  | nil => exact fun rows id r _ h _ => h
  | cons i ids ih =>
    intro rows id r hnd hr hterm
    rw [List.foldl_cons]
    have hstep : rowsFind (removeRows i rows) id = some r := by
      by_cases hii : i = id
      · rw [hii]
        exact rowsFind_removeRows_keep hnd hr hterm
      · rw [rowsFind_removeRows_ne (fun hh => hii hh.symm)]
        exact hr
    exact ih (removeRows i rows) id r (rowsKeys_removeRows_nodup rows i hnd) hstep hterm

theorem votedRecord_step (id : String) (op : DBOp) (s s' : DBState)
    (hnd : (rowsKeys s.rows).Nodup)
    (hrec : ∃ r, rowsFind s.rows id = some r ∧ r.voted = true ∧ r.tracked = false)
    (hm0 : id ∉ s.mem.map (·.identifier))
    (h : stepOp s op = some s') :
    (rowsKeys s'.rows).Nodup ∧
    (∃ r, rowsFind s'.rows id = some r ∧ r.voted = true ∧ r.tracked = false) ∧
    id ∉ s'.mem.map (·.identifier) := by
  obtain ⟨r, hr, hv, ht⟩ := hrec
  cases op with
  | add id0 rt rv =>
    obtain rfl : s' = (add_comment id0 rt rv s).2 := (Option.some.inj h).symm
    unfold add_comment
    by_cases hex : (rowsFind s.rows id0).isSome = true
    · rw [if_pos hex]
      exact ⟨hnd, ⟨r, hr, hv, ht⟩, hm0⟩
    · rw [if_neg hex]
      simp only
      have hne : id0 ≠ id := by
        intro hh
        rw [hh, hr] at hex
        simp at hex
      have hnone : rowsFind s.rows id0 = none := by
        cases hf : rowsFind s.rows id0
        · rfl
        · rw [hf] at hex
          simp at hex
      refine ⟨?_, ?_, ?_⟩
      · have hkeysnew : rowsKeys (s.rows ++ [(id0, ⟨rt, rv, true, false⟩)]) =
            rowsKeys s.rows ++ [id0] := by
          simp [rowsKeys]
        rw [hkeysnew, List.nodup_append]
        refine ⟨hnd, List.nodup_singleton id0, ?_⟩
        intro a ha hb
        have hkeys := (rowsFind_eq_none_iff s.rows id0).mp hnone
        simp only [List.mem_singleton] at hb
        subst hb
        obtain ⟨p, hp, hpa⟩ := List.mem_map.mp ha
        exact hkeys p hp hpa
      · refine ⟨r, ?_, hv, ht⟩
        rw [rowsFind_append, hr]
        rfl
      · intro hmm
        simp only [List.mem_map] at hmm
        obtain ⟨t, htm, hti⟩ := hmm
        rcases mem_dictSet htm with rfl | htm'
        · exact hne hti
        · exact hm0 (List.mem_map.mpr ⟨t, htm', hti⟩)
  | markVoted ids =>
    have h' : update_voted_comments ids s = some s' := h
    have hsome := update_voted_isSome ids s s' h'
    obtain ⟨s'', h0, hfv, hfn, hm, hnd'⟩ := update_voted_spec ids s hnd hsome
    rw [h'] at h0
    obtain rfl : s'' = s' := (Option.some.inj h0).symm
    refine ⟨hnd', ?_, ?_⟩
    · by_cases hin : id ∈ ids
      · refine ⟨markVotedRecord r, ?_, rfl, rfl⟩
        rw [hfv id hin, hr]
        rfl
      · rw [hfn id hin]
        exact ⟨r, hr, hv, ht⟩
    · intro hmm
      simp only [List.mem_map] at hmm
      obtain ⟨t, htm, hti⟩ := hmm
      exact hm0 (List.mem_map.mpr ⟨t, ((hm t).mp htm).1, hti⟩)
  | removeTracked ids =>
    obtain rfl : s' = remove_tracked_comments ids s := (Option.some.inj h).symm
    rw [remove_tracked_decomp]
    refine ⟨foldl_removeRows_nodup ids s.rows hnd, ?_, ?_⟩
    · refine ⟨r, ?_, hv, ht⟩
      apply rowsFind_foldl_removeRows_keep ids s.rows id r hnd hr
      rintro ⟨h1, _⟩
      rw [ht] at h1
      exact Bool.noConfusion h1
    · intro hmm
      simp only [List.mem_map] at hmm
      obtain ⟨t, htm, hti⟩ := hmm
      rw [mem_foldl_filter] at htm
      exact hm0 (List.mem_map.mpr ⟨t, htm.1, hti⟩)

theorem votedRecord_runOps (id : String) : ∀ (ops : List DBOp) (s s' : DBState),
    (rowsKeys s.rows).Nodup →
    (∃ r, rowsFind s.rows id = some r ∧ r.voted = true ∧ r.tracked = false) →
    id ∉ s.mem.map (·.identifier) →
    runOps s ops = some s' →
    (rowsKeys s'.rows).Nodup ∧
    (∃ r, rowsFind s'.rows id = some r ∧ r.voted = true ∧ r.tracked = false) ∧
    id ∉ s'.mem.map (·.identifier) := by
  intro ops
  induction ops with
  | nil =>
    intro s s' hnd hrec hm0 h
    obtain rfl : s = s' := Option.some.inj h
    exact ⟨hnd, hrec, hm0⟩
  | cons op ops ih =>
    intro s s' hnd hrec hm0 h
    simp only [runOps] at h
    cases hstep : stepOp s op with
    | none =>
      rw [hstep] at h
      cases h
    | some s₁ =>
      rw [hstep, Option.some_bind] at h
      obtain ⟨hnd₁, hrec₁, hm₁⟩ := votedRecord_step id op s s₁ hnd hrec hm0 hstep
      exact ih s₁ s' hnd₁ hrec₁ hm₁ h

/-- C2: when the broadcast for an approved tracked item fails with an
already-voted (duplicate-action) error — and every other approved
item's broadcast either succeeds or fails the same way, with the
tracked items backed by durable rows — the dispatch cycle completes
successfully and treats the item as voted: it is in the committed voted
batch, its durable record becomes `voted=True, tracked=False`, it
leaves the in-memory working set, and no state reachable by any further
sequence of store operations (later cycles included) submits it again;
when the broadcast instead fails with any other error, the error
propagates and the cycle commits nothing. -/
theorem c2_already_done_idempotent (dc : String → ShouldVoteR) (bc : String → BResult)
    (s : DBState) (id : String) (msg : String)
    (hnd : (rowsKeys s.rows).Nodup)
    (hrows : ∀ i ∈ s.mem.map (·.identifier), (rowsFind s.rows i).isSome = true)
    (hmem : id ∈ s.mem.map (·.identifier))
    (hvote : (dc id).vote = true)
    (hbc : bc id = BResult.rpcError msg)
    (halready : isAlreadyVotedError msg = true)
    (hsw : ∀ i ∈ s.mem.map (·.identifier), i ≠ id → (dc i).vote = true →
      bc i = BResult.ok ∨ ∃ m, bc i = BResult.rpcError m ∧ isAlreadyVotedError m = true) :
    (∃ s' voted old,
      vote_for_comments dc bc s = Except.ok s' ∧
      voteLoop dc bc (s.mem.map (·.identifier)) = Except.ok (voted, old) ∧
      id ∈ voted ∧
      (∃ r, rowsFind s'.rows id = some r ∧ r.voted = true ∧ r.tracked = false) ∧
      id ∉ s'.mem.map (·.identifier) ∧
      (∀ ops s'', runOps s' ops = some s'' → ∀ dc2, id ∉ submittedIds dc2 s'')) ∧
    (∀ bc2 msg2, bc2 id = BResult.rpcError msg2 → isAlreadyVotedError msg2 = false →
      ∃ e, vote_for_comments dc bc2 s = Except.error e) := by
  constructor
  · have hswall : ∀ i ∈ s.mem.map (·.identifier), (dc i).vote = true →
        vote bc i = Except.ok () := by
      intro i hi hvi
      by_cases hii : i = id
      · subst hii
        simp [vote, hbc, halready]
      · rcases hsw i hi hii hvi with hok | ⟨m, hm, ha⟩
        · simp [vote, hok]
        · simp [vote, hm, ha]
    obtain ⟨voted, old, hloop⟩ := voteLoop_ok_exists dc bc _ hswall
    have hidv : id ∈ voted := voteLoop_mem_voted dc bc _ voted old hloop id hmem hvote
    have hvrows : ∀ i ∈ voted, (rowsFind s.rows i).isSome = true := fun i hi =>
      hrows i (voteLoop_voted_mem dc bc _ voted old hloop i hi)
    obtain ⟨s₁, hupd, hfindv, hfindn, hmem1, hnd1⟩ := update_voted_spec voted s hnd hvrows
    have hcycle : vote_for_comments dc bc s =
        Except.ok (remove_tracked_comments old s₁) := by
      simp only [vote_for_comments, hloop, hupd]
    have hfid := hfindv id hidv
    rcases hr₁ : rowsFind s.rows id with _ | r₁
    · have := hrows id hmem
      rw [hr₁] at this
      cases this
    · rw [hr₁] at hfid
      have hidold : id ∉ old := by
        intro hin
        have hfalse := voteLoop_old_not_vote dc bc _ voted old hloop id hin
        rw [hvote] at hfalse
        exact Bool.noConfusion hfalse
      have hrec : ∃ r, rowsFind (remove_tracked_comments old s₁).rows id = some r ∧
          r.voted = true ∧ r.tracked = false := by
        refine ⟨markVotedRecord r₁, ?_, rfl, rfl⟩
        rw [remove_tracked_decomp]
        simp only
        rw [rowsFind_foldl_removeRows_ne old s₁.rows id hidold]
        exact hfid
      have hnotmem : id ∉ (remove_tracked_comments old s₁).mem.map (·.identifier) := by
        intro hin
        rw [remove_tracked_decomp] at hin
        simp only [List.mem_map] at hin
        obtain ⟨t, ht, hti⟩ := hin
        rw [mem_foldl_filter] at ht
        exact ((hmem1 t).mp ht.1).2 (by rw [hti]; exact hidv)
      have hnd' : (rowsKeys (remove_tracked_comments old s₁).rows).Nodup := by
        rw [remove_tracked_decomp]
        exact foldl_removeRows_nodup old s₁.rows hnd1
      refine ⟨remove_tracked_comments old s₁, voted, old, hcycle, hloop, hidv, hrec,
        hnotmem, ?_⟩
      intro ops s'' hrun dc2 hin
      have hP := votedRecord_runOps id ops (remove_tracked_comments old s₁) s''
        hnd' hrec hnotmem hrun
      exact hP.2.2 (List.mem_of_mem_filter hin)
  · intro bc2 msg2 hbc2 hnal
    have hverr : vote bc2 id = Except.error msg2 := by
      simp [vote, hbc2, hnal]
    obtain ⟨e, he⟩ := voteLoop_error dc bc2 _ id msg2 hmem hvote hverr
    refine ⟨e, ?_⟩
    unfold vote_for_comments
    rw [he]

theorem c2_already_done_idempotent_witness :
    (∃ s' voted old,
      vote_for_comments (fun _ => ⟨true, true, ""⟩)
        (fun _ => BResult.rpcError "Cannot vote again")
        ⟨[("a", ⟨"author", "alice", true, false⟩)], [⟨"a", "author", "alice"⟩]⟩ =
          Except.ok s' ∧
      voteLoop (fun _ => ⟨true, true, ""⟩) (fun _ => BResult.rpcError "Cannot vote again")
        (([⟨"a", "author", "alice"⟩] : List TrackedComment).map (·.identifier)) =
          Except.ok (voted, old) ∧
      "a" ∈ voted ∧
      (∃ r, rowsFind s'.rows "a" = some r ∧ r.voted = true ∧ r.tracked = false) ∧
      "a" ∉ s'.mem.map (·.identifier) ∧
      (∀ ops s'', runOps s' ops = some s'' → ∀ dc2, "a" ∉ submittedIds dc2 s'')) ∧
    (∀ bc2 msg2, bc2 "a" = BResult.rpcError msg2 → isAlreadyVotedError msg2 = false →
      ∃ e, vote_for_comments (fun _ => ⟨true, true, ""⟩) bc2
        ⟨[("a", ⟨"author", "alice", true, false⟩)], [⟨"a", "author", "alice"⟩]⟩ =
          Except.error e) :=
  c2_already_done_idempotent (fun _ => ⟨true, true, ""⟩)
    (fun _ => BResult.rpcError "Cannot vote again")
    ⟨[("a", ⟨"author", "alice", true, false⟩)], [⟨"a", "author", "alice"⟩]⟩
    "a" "Cannot vote again" (by simp [rowsKeys]) (by decide) (by decide) rfl rfl rfl
    (by
      intro i hi hne _
      simp at hi
      exact absurd hi hne)

/-! ### Preservation of the working-set invariant -/

theorem dbLoad_inv (rows : Rows) (hnd : (rowsKeys rows).Nodup) : DBInv (dbLoad rows) := by
  refine ⟨hnd, ?_⟩
  intro id
  constructor
  · rintro ⟨t, ht, hti⟩
    simp only [dbLoad, List.mem_map, List.mem_filter] at ht
    obtain ⟨p, ⟨hp, hcond⟩, hpt⟩ := ht
    have hkey : p.1 = id := by
      rw [← hpt] at hti
      exact hti
    simp only [Bool.and_eq_true, Bool.not_eq_true'] at hcond
    refine ⟨p.2, ?_, hcond.1, hcond.2⟩
    rw [← hkey]
    exact rowsFind_of_mem hnd hp
  · rintro ⟨r, hfind, h1, h2⟩
    have hmem := mem_of_rowsFind hfind
    refine ⟨⟨id, r.reason_type, r.reason_value⟩, ?_, rfl⟩
    simp only [dbLoad, List.mem_map]
    exact ⟨(id, r), List.mem_filter.mpr ⟨hmem, by simp [h1, h2]⟩, rfl⟩

theorem add_comment_inv (id rt rv : String) (s : DBState) (hinv : DBInv s) :
    DBInv (add_comment id rt rv s).2 := by
  rcases hinv with ⟨hnd, hiff⟩
  unfold add_comment
  by_cases hex : (rowsFind s.rows id).isSome = true
  · rw [if_pos hex]
    exact ⟨hnd, hiff⟩
  · rw [if_neg hex]
    simp only
    have hnone : rowsFind s.rows id = none := by
      cases hf : rowsFind s.rows id
      · rfl
      · rw [hf] at hex
        simp at hex
    have hnotmem : ∀ u ∈ s.mem, u.identifier ≠ id := by
      intro u hu hid
      obtain ⟨r, hr, _⟩ := (hiff id).mp ⟨u, hu, hid⟩
      rw [hnone] at hr
      cases hr
    have hdict : dictSet s.mem ⟨id, rt, rv⟩ = s.mem ++ [⟨id, rt, rv⟩] :=
      dictSet_append hnotmem
    have hkeysnew : rowsKeys (s.rows ++ [(id, ⟨rt, rv, true, false⟩)]) =
        rowsKeys s.rows ++ [id] := by
      simp [rowsKeys]
    constructor
    · rw [hkeysnew, List.nodup_append]
      refine ⟨hnd, List.nodup_singleton id, ?_⟩
      intro a ha hb
      have hkeys := (rowsFind_eq_none_iff s.rows id).mp hnone
      simp only [List.mem_singleton] at hb
      subst hb
      obtain ⟨p, hp, hpa⟩ := List.mem_map.mp ha
      exact hkeys p hp hpa
    · intro id'
      rw [hdict]
      constructor
      · rintro ⟨t, ht, hti⟩
        rcases List.mem_append.mp ht with hL | hR
        · obtain ⟨r, hr, h1, h2⟩ := (hiff id').mp ⟨t, hL, hti⟩
          refine ⟨r, ?_, h1, h2⟩
          rw [rowsFind_append, hr]
          rfl
        · simp only [List.mem_singleton] at hR
          subst hR
          have hti' : id = id' := hti
          subst hti'
          refine ⟨⟨rt, rv, true, false⟩, ?_, rfl, rfl⟩
          rw [rowsFind_append, hnone, Option.none_or, rowsFind_cons, if_pos rfl]
      · rintro ⟨r, hr, h1, h2⟩
        rw [rowsFind_append] at hr
        cases hf : rowsFind s.rows id' with
        | some r₀ =>
          rw [hf] at hr
          have hr₀ : r₀ = r := by simpa using hr
          subst hr₀
          obtain ⟨t, ht, hti⟩ := (hiff id').mpr ⟨r₀, hf, h1, h2⟩
          exact ⟨t, List.mem_append_left _ ht, hti⟩
        | none =>
          rw [hf, Option.none_or, rowsFind_cons] at hr
          by_cases hcase : id = id'
          · refine ⟨⟨id, rt, rv⟩, List.mem_append_right _ ?_, hcase⟩
            exact List.mem_singleton.mpr rfl
          · rw [if_neg hcase] at hr
            cases hr

theorem update_voted_inv (ids : List String) (s s' : DBState) (hinv : DBInv s)
    (h : update_voted_comments ids s = some s') : DBInv s' := by
  rcases hinv with ⟨hnd, hiff⟩
  have hsome := update_voted_isSome ids s s' h
  obtain ⟨s'', h0, hfv, hfn, hm, hnd'⟩ := update_voted_spec ids s hnd hsome
  rw [h] at h0
  obtain rfl : s'' = s' := (Option.some.inj h0).symm
  refine ⟨hnd', ?_⟩
  intro id
  by_cases hin : id ∈ ids
  · constructor
    · rintro ⟨t, ht, hti⟩
      have hm' := (hm t).mp ht
      exact absurd (by rw [hti]; exact hin) hm'.2
    · rintro ⟨r, hr, h1, h2⟩
      rw [hfv id hin] at hr
      cases hf : rowsFind s.rows id with
      | none =>
        rw [hf] at hr
        cases hr
      | some r₁ =>
        rw [hf] at hr
        have hrr : r = markVotedRecord r₁ := by simpa using hr.symm
        rw [hrr] at h2
        simp [markVotedRecord] at h2
  · rw [hfn id hin]
    constructor
    · rintro ⟨t, ht, hti⟩
      exact (hiff id).mp ⟨t, ((hm t).mp ht).1, hti⟩
    · intro hr
      obtain ⟨t, ht, hti⟩ := (hiff id).mpr hr
      refine ⟨t, (hm t).mpr ⟨ht, ?_⟩, hti⟩
      rw [hti]
      exact hin

theorem remove_tracked_inv (ids : List String) (s : DBState) (hinv : DBInv s) :
    DBInv (remove_tracked_comments ids s) := by
  rcases hinv with ⟨hnd, hiff⟩
  rw [remove_tracked_decomp]
  refine ⟨foldl_removeRows_nodup ids s.rows hnd, ?_⟩
  intro id
  by_cases hin : id ∈ ids
  · constructor
    · rintro ⟨t, ht, hti⟩
      rw [mem_foldl_filter] at ht
      exact absurd (by rw [hti]; exact hin) ht.2
    · rintro ⟨r, hr, h1, h2⟩
      exact absurd ⟨h1, h2⟩ (rowsFind_foldl_removeRows_mem ids s.rows id r hnd hin hr)
  · constructor
    · rintro ⟨t, ht, hti⟩
      rw [mem_foldl_filter] at ht
      obtain ⟨r, hr, h1, h2⟩ := (hiff id).mp ⟨t, ht.1, hti⟩
      refine ⟨r, ?_, h1, h2⟩
      rw [rowsFind_foldl_removeRows_ne ids s.rows id hin]
      exact hr
    · rintro ⟨r, hr, h1, h2⟩
      rw [rowsFind_foldl_removeRows_ne ids s.rows id hin] at hr
      obtain ⟨t, ht, hti⟩ := (hiff id).mpr ⟨r, hr, h1, h2⟩
      refine ⟨t, ?_, hti⟩
      rw [mem_foldl_filter]
      refine ⟨ht, ?_⟩
      rw [hti]
      exact hin

theorem stepOp_inv (s s' : DBState) (op : DBOp) (hinv : DBInv s)
    (h : stepOp s op = some s') : DBInv s' := by
  cases op with
  | add id rt rv =>
    obtain rfl : s' = (add_comment id rt rv s).2 := (Option.some.inj h).symm
    exact add_comment_inv id rt rv s hinv
  | markVoted ids => exact update_voted_inv ids s s' hinv h
  | removeTracked ids =>
    obtain rfl : s' = remove_tracked_comments ids s := (Option.some.inj h).symm
    exact remove_tracked_inv ids s hinv

theorem runOps_inv : ∀ (ops : List DBOp) (s s' : DBState), DBInv s →
    runOps s ops = some s' → DBInv s' := by
  intro ops
  induction ops with
  | nil =>
    intro s s' hinv h
    obtain rfl : s = s' := Option.some.inj h
    exact hinv
  | cons op ops ih =>
    intro s s' hinv h
    simp only [runOps] at h
    cases hstep : stepOp s op with
    | none =>
      rw [hstep] at h
      cases h
    | some s₁ =>
      rw [hstep, Option.some_bind] at h
      exact ih s₁ s' (stepOp_inv s s₁ op hinv hstep) h

/-- C10: after `load` and any sequence of successful `add_comment`,
`update_voted_comments` and `remove_tracked_comments` operations, an
identifier has an entry in the in-memory working set (the comments
returned by `get_tracked_comments`) exactly when a durable record
exists for it with `tracked=True` and `voted=False`. -/
theorem c10_working_set_invariant (rows : Rows) (hnd : (rowsKeys rows).Nodup)
    (ops : List DBOp) (s' : DBState) (h : runOps (dbLoad rows) ops = some s') :
    ∀ id, (∃ t ∈ get_tracked_comments s', t.identifier = id) ↔
      (∃ r, rowsFind s'.rows id = some r ∧ r.tracked = true ∧ r.voted = false) :=
  (runOps_inv ops (dbLoad rows) s' (dbLoad_inv rows hnd) h).2

theorem c10_working_set_invariant_witness :
    (∃ t ∈ get_tracked_comments
        ⟨[("a", ⟨"author", "alice", false, true⟩), ("b", ⟨"author", "bob", false, true⟩)], []⟩,
        t.identifier = "a") ↔
      (∃ r, rowsFind ([("a", ⟨"author", "alice", false, true⟩),
          ("b", ⟨"author", "bob", false, true⟩)] : Rows) "a" = some r ∧
        r.tracked = true ∧ r.voted = false) :=
  c10_working_set_invariant
    [("a", ⟨"author", "alice", true, false⟩), ("b", ⟨"author", "bob", false, true⟩)]
    (by simp [rowsKeys])
    [DBOp.add "c" "delegate" "dave", DBOp.markVoted ["a"], DBOp.removeTracked ["c"]]
    ⟨[("a", ⟨"author", "alice", false, true⟩), ("b", ⟨"author", "bob", false, true⟩)], []⟩
    rfl "a"

end Steemvote
